import Mathlib

/-!
Shallow embedding of the EmPower1 ledger (src/empower1): the identity and
signing layer, the transaction and block entities, the validator registry,
the ledger core and the peer synchronisation logic, with theorems settling
the specification claims C1..C10.

Modelling conventions:
* SHA-256 is modelled as a collision-free idealisation: the digest of a
  string is the string itself, so equality of digests coincides with
  equality of preimages, exactly as an ideal hash behaves.
* ECDSA is modelled symbolically: a signature records the signing key and
  the signed digest, and verification succeeds exactly on that pair.
  Flipping a byte of a real signature becomes replacing the value by a
  different one.
* Python floats carrying monetary amounts and timestamps are modelled as
  rationals; the fixed-precision f-string formatting used by the
  serialisation rounds to the corresponding number of decimal places.
* Python dicts become association lists whose update replaces the first
  matching key in place, mirroring insertion-ordered dict assignment.
-/

attribute [local semireducible] Rat.add Rat.mul Rat.sub Rat.inv

namespace Empower1

/-- Digest of SHA-256 in the collision-free idealisation. -/
def sha256 (s : String) : String := s

/-- Symbolic ECDSA signature: the signing key together with the digest
that was signed (wallet.py, Wallet.sign_data). -/
structure Sig where
  key : String
  data : String
deriving DecidableEq, Repr

/-- Wallet (wallet.py): a keypair plus the derived address. The public key
hex and the private key are identified symbolically; the address is an
abstract identifier (its hash-derivation from the key is outside the
claims under study). -/
structure Wallet where
  address : String
  key : String
deriving DecidableEq, Repr

/-- Wallet.sign_data: sign a pre-hashed digest with the private key. -/
def Wallet.sign_data (w : Wallet) (data_hash : String) : Sig := ⟨w.key, data_hash⟩

/-- Wallet.verify_signature (wallet.py): total boolean verification of a
signature against a public key and a digest. -/
def Wallet.verify (public_key_hex : String) (data_hash : String) (sig : Sig) : Bool :=
  sig.key == public_key_hex && sig.data == data_hash

/-- Mathematical floor of a rational, written through Int.fdiv so that
concrete values reduce inside the kernel. -/
def qfloor (q : ℚ) : ℤ := q.num.fdiv q.den

/-- Rounding to the nearest integer. Python's fixed-precision float
formatting resolves exact halves by round-half-even, but an exact half at
the 8th or 6th decimal is not representable in the binary floats the
source manipulates, so rounding half upward is observationally identical. -/
def qround (q : ℚ) : ℤ := qfloor (q + 1 / 2)

/-- Fixed-precision rendering of a float at 8 decimal places: the
f-string rendering x:.8f in transaction.py determines the serialised text
only through the value rounded to 8 decimals, modelled by rendering that
rounded integer. -/
def fmtFixed8 (q : ℚ) : String := toString (qround (q * 100000000))

/-- Fixed-precision rendering of a float at 6 decimal places (timestamps). -/
def fmtFixed6 (q : ℚ) : String := toString (qround (q * 1000000))

/-- Code-point lexicographic comparison of character lists, written
structurally; it decides Python's string ordering used by sorted(...)
and json.dumps(..., sort_keys=True). -/
def charListLe : List Char → List Char → Bool
  | [], _ => true
  | _ :: _, [] => false
  | c1 :: r1, c2 :: r2 => if c1 < c2 then true else if c2 < c1 then false else charListLe r1 r2

/-- Python's string comparison: code-point lexicographic order. -/
def strLeB (a b : String) : Bool := charListLe a.data b.data

/-- Deterministic metadata serialisation: json.dumps with sort_keys=True
renders the key/value pairs in lexicographic key order (a stable sort,
modelled by insertion sort). -/
def metaJson (m : List (String × String)) : String :=
  String.join ((m.insertionSort (fun a b => strLeB a.1 b.1 = true)).map
    (fun kv => kv.1 ++ ":" ++ kv.2))

/-- Transaction entity (transaction.py). transaction_id is a
construction-time snapshot stored in the record, never recomputed on
mutation. -/
structure Transaction where
  sender_address : String
  receiver_address : String
  amount : ℚ
  asset_id : String
  timestamp : ℚ
  fee : ℚ
  metadata : List (String × String)
  signature_hex : Option Sig
  transaction_id : String
deriving DecidableEq, Repr

namespace Transaction

/-- Transaction.get_data_for_signing: deterministic concatenation of all
fields except the signature, with amounts and fee at 8 decimals, the
timestamp at 6 decimals and metadata serialised with sorted keys. -/
def get_data_for_signing (t : Transaction) : String :=
  t.sender_address ++ t.receiver_address ++ fmtFixed8 t.amount ++ t.asset_id ++
    fmtFixed6 t.timestamp ++ fmtFixed8 t.fee ++ metaJson t.metadata

/-- Transaction._calculate_transaction_id: SHA-256 of the signable data. -/
def calculate_transaction_id (t : Transaction) : String :=
  sha256 (get_data_for_signing t)

/-- Transaction.__init__ : the identifier is computed once from the field
values at construction time. -/
def init (sender receiver : String) (amount : ℚ) (asset_id : String) (timestamp : ℚ)
    (fee : ℚ) (metadata : List (String × String)) (signature_hex : Option Sig) : Transaction :=
  let t0 : Transaction :=
    { sender_address := sender, receiver_address := receiver, amount := amount,
      asset_id := asset_id, timestamp := timestamp, fee := fee, metadata := metadata,
      signature_hex := signature_hex, transaction_id := "" }
  { t0 with transaction_id := calculate_transaction_id t0 }

/-- Transaction.sign (transaction.py): signs the SHA-256 digest of the
currently serialised fields. The source's docstring promises a ValueError
when wallet.address differs from sender_address, but the corresponding
branch of the source is a bare pass: the transaction is signed regardless
(this matters for claim C7). -/
def sign (t : Transaction) (w : Wallet) : Transaction :=
  { t with signature_hex := some (w.sign_data (sha256 (get_data_for_signing t))) }

/-- Transaction.verify_signature: re-serialises the current field values
and checks the stored signature against the fresh digest. Returns false
when no signature is stored; malformed-input exceptions of the source are
absorbed into the total boolean. -/
def verify_signature (t : Transaction) (sender_public_key_hex : String) : Bool :=
  match t.signature_hex with
  | none => false
  | some sig => Wallet.verify sender_public_key_hex (sha256 (get_data_for_signing t)) sig

end Transaction

/-- Balance table (Python dict from address to float amount). -/
abbrev Balances := List (String × ℚ)

/-- Python dict.get(k, 0.0) on the balance table: value of the first
binding of the key, defaulting to zero. -/
def bget : Balances → String → ℚ
  | [], _ => 0
  | kv :: rest, k => if kv.1 = k then kv.2 else bget rest k

/-- Python dict assignment d[k] = v: replaces the first binding of k in
place, or appends a fresh binding at the end, mirroring insertion order. -/
def bset : Balances → String → ℚ → Balances
  | [], k, v => [(k, v)]
  | kv :: rest, k, v => if kv.1 = k then (k, v) :: rest else kv :: bset rest k v

/-- Sum of all entries of a balance table. -/
def bsum (b : Balances) : ℚ := (b.map Prod.snd).sum

/-- Python dict.get(k) returning None when absent, for the process-wide
registries and the validator dictionary. -/
def lookupStr {α : Type} : List (String × α) → String → Option α
  | [], _ => none
  | kv :: rest, k => if kv.1 = k then some kv.2 else lookupStr rest k

/-- Python dict assignment for the registries. -/
def setStr {α : Type} : List (String × α) → String → α → List (String × α)
  | [], k, v => [(k, v)]
  | kv :: rest, k, v => if kv.1 = k then (k, v) :: rest else kv :: setStr rest k v

/-- Python dict equality: order-insensitive comparison of the bindings
(keys are unique in a dict, so the first binding decides). -/
def dictEqB (a b : Balances) : Bool :=
  (a.map Prod.fst ++ b.map Prod.fst).all (fun k => lookupStr a k == lookupStr b k)

/-- Block entity (block.py). The hash field is a construction-time
snapshot of the header hash. -/
structure Block where
  index : Nat
  transactions : List Transaction
  timestamp : ℚ
  previous_hash : String
  validator_address : String
  signature_hex : Option Sig
  hash : String
deriving DecidableEq, Repr

namespace Block

/-- Block._get_transaction_hashes_for_merkle_or_hash: order-sensitive
concatenation of the stored transaction identifiers (no Merkle tree). -/
def transaction_fingerprint (b : Block) : String :=
  String.join (b.transactions.map (·.transaction_id))

/-- Block.get_data_for_block_hashing: header fields plus the transaction
fingerprint, excluding the block's own hash and signature. -/
def get_data_for_block_hashing (b : Block) : String :=
  toString b.index ++ fmtFixed6 b.timestamp ++ b.previous_hash ++ b.validator_address ++
    transaction_fingerprint b

/-- Block._calculate_block_hash. -/
def calculate_block_hash (b : Block) : String :=
  sha256 (get_data_for_block_hashing b)

/-- Block.__init__ : the stored hash is computed once at construction. -/
def init (index : Nat) (transactions : List Transaction) (timestamp : ℚ)
    (previous_hash validator_address : String) (signature_hex : Option Sig) : Block :=
  let b0 : Block :=
    { index := index, transactions := transactions, timestamp := timestamp,
      previous_hash := previous_hash, validator_address := validator_address,
      signature_hex := signature_hex, hash := "" }
  { b0 with hash := calculate_block_hash b0 }

/-- Block.get_data_for_block_signing: the data a validator signs is the
block's own stored hash. -/
def get_data_for_block_signing (b : Block) : String := b.hash

/-- Block.sign_block: signs the SHA-256 digest of the stored hash. The
source raises ValueError when the wallet's address differs from
validator_address; every caller in the source satisfies the check, and
the raising branch is modelled as leaving the block unsigned. -/
def sign_block (b : Block) (validator_wallet : Wallet) : Block :=
  if validator_wallet.address = b.validator_address then
    let sig := validator_wallet.sign_data (sha256 (get_data_for_block_signing b))
    { b with signature_hex := some sig }
  else b

/-- Block.verify_block_signature: checks the stored signature against the
stored hash field, never a recomputed one. -/
def verify_block_signature (b : Block) (validator_public_key_hex : String) : Bool :=
  match b.signature_hex with
  | none => false
  | some sig =>
    if b.hash = "" then false
    else Wallet.verify validator_public_key_hex (sha256 (get_data_for_block_signing b)) sig

end Block

/-- Validator record (consensus/validator.py). Equality in the source is
by address alone; the structural equality of the embedding is used only
where full records coincide. -/
structure Validator where
  wallet_address : String
  public_key_hex : String
  stake : ℚ
  last_block_produced_timestamp : ℚ
  is_active : Bool
  joined_timestamp : ℚ
deriving DecidableEq, Repr

/-- Validator.__init__ : fresh record, inactive until the manager
recomputes the flag. The constructor's ValueError guards (empty address
or key, negative stake) are respected by the managing callers modelled
below. -/
def Validator.init (addr pk : String) (stake : ℚ) (now : ℚ) : Validator :=
  { wallet_address := addr, public_key_hex := pk, stake := stake,
    last_block_produced_timestamp := 0, is_active := false, joined_timestamp := now }

/-- Validator registry (consensus/manager.py): insertion-ordered map of
validators, the activation threshold, the sorted active-address list and
the round-robin cursor. -/
structure ValidatorManager where
  validators : List (String × Validator)
  min_stake_active : ℚ
  active_rr : List String
  last_idx : Int
deriving DecidableEq, Repr

/-- ValidatorManager.__init__ with the default MIN_STAKE_TO_BE_ACTIVE. -/
def ValidatorManager.init (min_stake : ℚ) : ValidatorManager :=
  { validators := [], min_stake_active := min_stake, active_rr := [], last_idx := -1 }

namespace ValidatorManager

/-- ValidatorManager.get_validator. -/
def get_validator (m : ValidatorManager) (addr : String) : Option Validator :=
  lookupStr m.validators addr

/-- ValidatorManager._rebuild_active_validator_list_for_round_robin:
sorted active addresses, cursor clamped back to -1 when out of bounds. -/
def rebuild (m : ValidatorManager) : ValidatorManager :=
  let act := ((m.validators.filter (fun kv => kv.2.is_active)).map Prod.fst).insertionSort
    (fun a b => strLeB a b = true)
  { m with active_rr := act,
           last_idx := if m.last_idx ≥ (act.length : Int) then -1 else m.last_idx }

/-- ValidatorManager._update_validator_active_status: recompute the flag
from the stake; on a change, store it and rebuild the rotation list. -/
def update_active_status (m : ValidatorManager) (addr : String) : ValidatorManager :=
  match lookupStr m.validators addr with
  | none => m
  | some v =>
    let nowActive := decide (v.stake ≥ m.min_stake_active)
    if v.is_active = nowActive then m
    else rebuild { m with validators := setStr m.validators addr { v with is_active := nowActive } }

/-- ValidatorManager.add_or_update_validator_stake: create (rejecting a
negative initial contribution) or add the delta (rejecting a negative
result), then refresh the active flag and rebuild the rotation list. -/
def add_or_update_validator_stake (m : ValidatorManager) (addr pk : String)
    (stake_change : ℚ) (now : ℚ) : Option Validator × ValidatorManager :=
  if addr = "" ∨ pk = "" then (none, m)
  else
    match lookupStr m.validators addr with
    | none =>
      if stake_change < 0 then (none, m)
      else
        let vs1 := setStr m.validators addr (Validator.init addr pk stake_change now)
        let m2 := rebuild (update_active_status { m with validators := vs1 } addr)
        (lookupStr m2.validators addr, m2)
    | some v =>
      if v.stake + stake_change < 0 then (none, m)
      else
        let vs1 := setStr m.validators addr { v with stake := v.stake + stake_change }
        let m2 := rebuild (update_active_status { m with validators := vs1 } addr)
        (lookupStr m2.validators addr, m2)

/-- ValidatorManager.select_next_validator_round_robin: advance the
cursor modulo the active-list length, return that validator and record
its production time; None when no validator is active. -/
def select_next_validator_round_robin (m : ValidatorManager) (now : ℚ) :
    Option Validator × ValidatorManager :=
  if m.active_rr.length = 0 then (none, m)
  else
    let idx : Int := (m.last_idx + 1) % (m.active_rr.length : Int)
    let m1 := { m with last_idx := idx }
    let selected_address := m1.active_rr.getD idx.toNat ""
    match lookupStr m1.validators selected_address with
    | none => (none, m1)
    | some v =>
      let v' := { v with last_block_produced_timestamp := now }
      (some v', { m1 with validators := setStr m1.validators selected_address v' })

/-- ValidatorManager.select_next_validator with the default round-robin
strategy (the only implemented one). -/
def select_next_validator (m : ValidatorManager) (now : ℚ) :
    Option Validator × ValidatorManager :=
  select_next_validator_round_robin m now

end ValidatorManager

/-- Full node state: the Blockchain object's fields, the process-wide
registries of blockchain.py (USER_PUBLIC_KEYS, VALIDATOR_WALLETS) and the
transport-layer state of network.py (peers, broadcast-seen sets, the
sync guard). Peer sets are modelled as lists read through membership. -/
structure Node where
  chain : List Block
  pending_transactions : List Transaction
  validator_manager : ValidatorManager
  balances : Balances
  total_supply_epc : ℚ
  user_public_keys : List (String × String)
  validator_wallets : List (String × Wallet)
  peers : List String
  seen_tx_ids_broadcast : List String
  seen_block_hashes_broadcast : List String
  syncing_in_progress : Bool
deriving DecidableEq, Repr

/-- Blockchain.NATIVE_CURRENCY_SYMBOL. -/
def NATIVE_CURRENCY_SYMBOL : String := "EPC"

/-- Fixed initial supply allocated at genesis. -/
def INITIAL_SUPPLY_EPC : ℚ := 1000000

/-- Blockchain.__init__ together with _create_and_sign_genesis_block: a
fresh genesis validator wallet w (the source draws it at random), both
process-wide registries seeded with it, block 0 with no transactions and
previous-hash sentinel "0" signed by it, and the entire initial supply
credited to its address. -/
def createBlockchain (w : Wallet) (now : ℚ) : Node :=
  let g := (Block.init 0 [] now "0" w.address none).sign_block w
  { chain := [g]
    pending_transactions := []
    validator_manager := ValidatorManager.init 100
    balances := bset [] w.address INITIAL_SUPPLY_EPC
    total_supply_epc := INITIAL_SUPPLY_EPC
    user_public_keys := setStr [] w.address w.key
    validator_wallets := setStr [] w.address w
    peers := []
    seen_tx_ids_broadcast := []
    seen_block_hashes_broadcast := []
    syncing_in_progress := false }

/-- Blockchain._process_transaction_for_state_changes acting on a balance
table: no-op for non-native assets, otherwise reject on insufficient
funds or debit the sender and credit the receiver. -/
def process_transaction_for_state_changes (balances : Balances) (t : Transaction) :
    Bool × Balances :=
  if t.asset_id ≠ NATIVE_CURRENCY_SYMBOL then (true, balances)
  else
    let sender_balance := bget balances t.sender_address
    if sender_balance < t.amount then (false, balances)
    else
      let b1 := bset balances t.sender_address (sender_balance - t.amount)
      (true, bset b1 t.receiver_address (bget b1 t.receiver_address + t.amount))

/-- Network.broadcast_transaction: suppressed when the identifier is
already in the seen set, otherwise the identifier is marked seen and the
record is posted to every peer (delivery has no further local effect). -/
def broadcast_transaction (n : Node) (t : Transaction) : Node :=
  if n.seen_tx_ids_broadcast.contains t.transaction_id then n
  else { n with seen_tx_ids_broadcast := n.seen_tx_ids_broadcast ++ [t.transaction_id] }

/-- Network.broadcast_block: the block-hash analogue of
broadcast_transaction. -/
def broadcast_block (n : Node) (b : Block) : Node :=
  if n.seen_block_hashes_broadcast.contains b.hash then n
  else { n with seen_block_hashes_broadcast := n.seen_block_hashes_broadcast ++ [b.hash] }

/-- Sum of the sender's other pending native transfers, as computed
inline by Blockchain.add_transaction over the mempool. -/
def pending_outgoing (n : Node) (sender : String) : ℚ :=
  ((n.pending_transactions.filter (fun tx =>
      tx.sender_address == sender && tx.asset_id == NATIVE_CURRENCY_SYMBOL)).map
    (fun tx => tx.amount)).sum

/-- Blockchain.add_transaction. The isinstance and hasattr guards of the
source always hold in the typed embedding. On local acceptance the
transport layer's broadcast_transaction runs; a network-relayed
acceptance suppresses it. -/
def add_transaction (n : Node) (t : Transaction) (sender_public_key_hex : String)
    (received_from_network : Bool) : Bool × Node :=
  if ¬ t.verify_signature sender_public_key_hex then (false, n)
  else
    let funds_ok : Bool :=
      if t.asset_id = NATIVE_CURRENCY_SYMBOL then
        let current_sender_balance := bget n.balances t.sender_address
        decide (t.amount ≤ current_sender_balance - pending_outgoing n t.sender_address)
      else true
    if ¬ funds_ok then (false, n)
    else if n.pending_transactions.any (fun tx => tx.transaction_id == t.transaction_id) then
      (true, n)
    else
      let n1 := { n with pending_transactions := n.pending_transactions ++ [t] }
      if received_from_network then (true, n1) else (true, broadcast_transaction n1 t)

/-- Simulation loop of Blockchain.mine_pending_transactions: walk the
pending list against a snapshot balance table, keeping affordable native
transfers (debiting and crediting the snapshot) and all non-native
transactions unconditionally, and skipping unaffordable native ones.
Returns the final snapshot and the kept transactions. -/
def simulate_pending : List Transaction → Balances → Balances × List Transaction
  | [], temp => (temp, [])
  | tx :: rest, temp =>
    if tx.asset_id = NATIVE_CURRENCY_SYMBOL then
      let sb := bget temp tx.sender_address
      if tx.amount ≤ sb then
        let t1 := bset temp tx.sender_address (sb - tx.amount)
        let t2 := bset t1 tx.receiver_address (bget t1 tx.receiver_address + tx.amount)
        let (tf, kept) := simulate_pending rest t2
        (tf, tx :: kept)
      else simulate_pending rest temp
    else
      let (tf, kept) := simulate_pending rest temp
      (tf, tx :: kept)

/-- Application loop of mine_pending_transactions: fold
_process_transaction_for_state_changes over the block's transactions on
the live balance table, stopping at the first failure (the source's
CRITICAL ERROR path, which returns None and keeps the partial
mutations). -/
def apply_transactions : List Transaction → Balances → Bool × Balances
  | [], balances => (true, balances)
  | tx :: rest, balances =>
    let (ok, b1) := process_transaction_for_state_changes balances tx
    if ok then apply_transactions rest b1 else (false, b1)

/-- Blockchain.mine_pending_transactions: select the next validator
(mutating the rotation state even on a later failure), fail without a
wallet, a pending transaction or a surviving candidate, otherwise build
and sign the block, apply the real state transition, append the block,
prune the mempool and broadcast. -/
def mine_pending_transactions (n : Node) (now : ℚ) : Option Block × Node :=
  let (sel, vm1) := n.validator_manager.select_next_validator now
  let n0 := { n with validator_manager := vm1 }
  match sel with
  | none => (none, n0)
  | some sv =>
    match lookupStr n0.validator_wallets sv.wallet_address with
    | none => (none, n0)
    | some validator_wallet =>
      if n0.pending_transactions = [] then (none, n0)
      else
        let (_, valid_txs) := simulate_pending n0.pending_transactions n0.balances
        if valid_txs = [] then (none, n0)
        else
          let last_hash := ((n0.chain.getLast?).map (fun b => b.hash)).getD "0"
          let new_block :=
            (Block.init n0.chain.length valid_txs now last_hash sv.wallet_address none).sign_block
              validator_wallet
          let (ok, balances') := apply_transactions new_block.transactions n0.balances
          if ¬ ok then (none, { n0 with balances := balances' })
          else
            let mined_ids := new_block.transactions.map (fun tx => tx.transaction_id)
            let n1 := { n0 with
              balances := balances'
              chain := n0.chain ++ [new_block]
              pending_transactions := n0.pending_transactions.filter
                (fun ptx => ¬ mined_ids.contains ptx.transaction_id) }
            (some new_block, broadcast_block n1 new_block)

/-- Error kinds of Blockchain.is_chain_valid: each return-False site of
the source prints a distinct diagnostic, modelled as a distinct kind. -/
inductive ChainError where
  | invalidHash
  | brokenLink
  | missingValidatorKey
  | validatorNotInManager
  | invalidBlockSignature
  | missingSenderKey
  | invalidTxSignature
  | replayInsufficientFunds
  | balanceMismatch
deriving DecidableEq, Repr

/-- Transaction loop of is_chain_valid for one block: verify each
signature against the registered sender key and replay native transfers
on the running table. -/
def check_block_transactions (keys : List (String × String)) :
    List Transaction → Balances → Except ChainError Balances
  | [], temp => .ok temp
  | tx :: rest, temp =>
    match lookupStr keys tx.sender_address with
    | none => .error .missingSenderKey
    | some pk =>
      if ¬ tx.verify_signature pk then .error .invalidTxSignature
      else if tx.asset_id = NATIVE_CURRENCY_SYMBOL then
        let sender_bal := bget temp tx.sender_address
        if sender_bal < tx.amount then .error .replayInsufficientFunds
        else
          let t1 := bset temp tx.sender_address (sender_bal - tx.amount)
          check_block_transactions keys rest
            (bset t1 tx.receiver_address (bget t1 tx.receiver_address + tx.amount))
      else check_block_transactions keys rest temp

/-- Header checks of one loop iteration of is_chain_valid: hash
recomputation for every block; linkage, key lookup, manager membership
and signature for non-genesis blocks; key lookup and signature for a
signed genesis block. -/
def check_block_header (keys : List (String × String)) (vm : ValidatorManager)
    (prev : Option Block) (b : Block) : Option ChainError :=
  if b.hash ≠ b.calculate_block_hash then some .invalidHash
  else
    match prev with
    | some p =>
      if b.previous_hash ≠ p.hash then some .brokenLink
      else
        match lookupStr keys b.validator_address with
        | none => some .missingValidatorKey
        | some vpk =>
          if (vm.get_validator b.validator_address).isNone then some .validatorNotInManager
          else if ¬ b.verify_block_signature vpk then some .invalidBlockSignature
          else none
    | none =>
      match b.signature_hex with
      | none => none
      | some _ =>
        match lookupStr keys b.validator_address with
        | none => some .missingValidatorKey
        | some vpk =>
          if ¬ b.verify_block_signature vpk then some .invalidBlockSignature
          else none

/-- Block loop of is_chain_valid; prev is none exactly at chain index 0. -/
def check_chain_blocks (keys : List (String × String)) (vm : ValidatorManager) :
    Option Block → List Block → Balances → Except ChainError Balances
  | _, [], temp => .ok temp
  | prev, b :: rest, temp =>
    match check_block_header keys vm prev b with
    | some e => .error e
    | none =>
      match check_block_transactions keys b.transactions temp with
      | .error e => .error e
      | .ok temp' => check_chain_blocks keys vm (some b) rest temp'

/-- Error-kind refinement of Blockchain.is_chain_valid: the replay table
is seeded with the whole supply at the genesis validator when the first
block carries no transactions; after the walk, chains longer than one
block must replay to the live table up to zero-balance entries. -/
def chain_check (n : Node) : Option ChainError :=
  let seed : Balances :=
    match n.chain.head? with
    | none => []
    | some g =>
      if g.transactions = [] then bset [] g.validator_address n.total_supply_epc else []
  match check_chain_blocks n.user_public_keys n.validator_manager none n.chain seed with
  | .error e => some e
  | .ok replayed =>
    if n.chain.length > 1 then
      if dictEqB (replayed.filter (fun kv => kv.2 != 0)) (n.balances.filter (fun kv => kv.2 != 0))
      then none
      else some .balanceMismatch
    else none

/-- Blockchain.is_chain_valid as the source's boolean. -/
def is_chain_valid (n : Node) : Bool := (chain_check n).isNone

/-- Blockchain.register_validator_wallet: positive initial stake, stake
registration with the manager, and on success both process-wide
registries are seeded with the wallet. -/
def register_validator_wallet (n : Node) (w : Wallet) (stake_amount : ℚ) (now : ℚ) : Node :=
  if stake_amount ≤ 0 then n
  else
    let (vopt, vm') := n.validator_manager.add_or_update_validator_stake w.address w.key
      stake_amount now
    let n1 := { n with validator_manager := vm' }
    match vopt with
    | none => n1
    | some _ =>
      { n1 with validator_wallets := setStr n1.validator_wallets w.address w
                user_public_keys := setStr n1.user_public_keys w.address w.key }

/-- JSON record of a transaction, exactly the fields written by
Transaction.to_dict. -/
structure TxRecord where
  transaction_id : String
  sender_address : String
  receiver_address : String
  amount : ℚ
  asset_id : String
  timestamp : ℚ
  fee : ℚ
  metadata : List (String × String)
  signature_hex : Option Sig
deriving DecidableEq, Repr

/-- Transaction.to_dict (transaction.py). -/
def Transaction.to_dict (t : Transaction) : TxRecord :=
  { transaction_id := t.transaction_id, sender_address := t.sender_address,
    receiver_address := t.receiver_address, amount := t.amount, asset_id := t.asset_id,
    timestamp := t.timestamp, fee := t.fee, metadata := t.metadata,
    signature_hex := t.signature_hex }

/-- Transaction.from_dict (transaction.py): rebuilds through the
constructor, so the identifier is recalculated from the record's fields
while the stored signature is carried over unchanged. -/
def Transaction.from_dict (r : TxRecord) : Transaction :=
  Transaction.init r.sender_address r.receiver_address r.amount r.asset_id r.timestamp r.fee
    r.metadata r.signature_hex

/-- JSON record of a block as produced for the network endpoints. -/
structure BlockRecord where
  index : Nat
  transactions : List TxRecord
  timestamp : ℚ
  previous_hash : String
  validator_address : String
  hash : String
  signature_hex : Option Sig
deriving DecidableEq, Repr

/-- Modelled from the spec: Block.to_dict is called by
get_chain_endpoint, broadcast_block, handle_chain_response's peers and
the tests, but its definition is not under src. Section 6 of the spec
requires the record to carry every block field of section 3 plus the
hex-encoded signature, with the embedded transaction list serialised
through Transaction.to_dict. -/
def Block.to_dict (b : Block) : BlockRecord :=
  { index := b.index, transactions := b.transactions.map Transaction.to_dict,
    timestamp := b.timestamp, previous_hash := b.previous_hash,
    validator_address := b.validator_address, hash := b.hash,
    signature_hex := b.signature_hex }

/-- Modelled from the spec: Block.from_dict is called by
handle_received_block and handle_chain_response but its definition is
not under src. The spec's serialisation section says the deserialisation
reconstructs a block from such a record, so the stored hash and
signature fields are restored verbatim and the embedded transactions are
rebuilt through Transaction.from_dict. -/
def Block.from_dict (r : BlockRecord) : Block :=
  { index := r.index, transactions := r.transactions.map Transaction.from_dict,
    timestamp := r.timestamp, previous_hash := r.previous_hash,
    validator_address := r.validator_address, hash := r.hash,
    signature_hex := r.signature_hex }

/-- GET chain endpoint (network.py get_chain_endpoint): the response body
lists Block.to_dict of every chain block together with the chain length. -/
def get_chain_endpoint (n : Node) : List BlockRecord × Nat :=
  (n.chain.map Block.to_dict, n.chain.length)

/-- Network.handle_received_transaction: the required-field check always
passes on the typed record; short-circuit when the identifier is already
pending or committed; deserialise and reject an identifier that does not
match the record's fields; look up the sender key in the process-wide
registry; delegate to add_transaction with the network flag set
(suppressing the ledger-side broadcast); re-broadcast unless seen. -/
def handle_received_transaction (n : Node) (r : TxRecord) : Bool × Node :=
  if n.pending_transactions.any (fun tx => tx.transaction_id == r.transaction_id) ||
      n.chain.any (fun b => b.transactions.any (fun tx => tx.transaction_id == r.transaction_id))
  then (true, n)
  else
    let t := Transaction.from_dict r
    if t.transaction_id ≠ r.transaction_id then (false, n)
    else
      match lookupStr n.user_public_keys t.sender_address with
      | none => (false, n)
      | some pk =>
        let (success, n1) := add_transaction n t pk true
        if success then
          if ¬ n1.seen_tx_ids_broadcast.contains t.transaction_id then
            (true, broadcast_transaction n1 t)
          else (true, n1)
        else (false, n1)

/-- Shared replay-and-verify loop of handle_chain_response: each
transaction's signature is checked against the registered sender key and
native transfers are replayed on the snapshot, failing the whole list at
the first unknown key, bad signature or unaffordable debit. -/
def validate_block_txs (keys : List (String × String)) :
    List Transaction → Balances → Option Balances
  | [], bal => some bal
  | tx :: rest, bal =>
    match lookupStr keys tx.sender_address with
    | none => none
    | some pk =>
      if ¬ tx.verify_signature pk then none
      else if tx.asset_id = NATIVE_CURRENCY_SYMBOL then
        let sb := bget bal tx.sender_address
        if sb < tx.amount then none
        else
          let t1 := bset bal tx.sender_address (sb - tx.amount)
          validate_block_txs keys rest
            (bset t1 tx.receiver_address (bget t1 tx.receiver_address + tx.amount))
      else validate_block_txs keys rest bal

/-- Validation loop of handle_chain_response over the non-genesis part of
the prospective chain, carrying the growing temporary chain length, the
previous block and the replayed balances. -/
def validate_prospective (keys : List (String × String)) :
    List Block → Nat → Block → Balances → Option Balances
  | [], _, _, bal => some bal
  | b :: rest, len, prev, bal =>
    if b.previous_hash ≠ prev.hash ∨ b.index ≠ len ∨ b.hash ≠ b.calculate_block_hash then none
    else
      match lookupStr keys b.validator_address with
      | none => none
      | some vpk =>
        if ¬ b.verify_block_signature vpk then none
        else
          match validate_block_txs keys b.transactions bal with
          | none => none
          | some bal' => validate_prospective keys rest (len + 1) b bal'

/-- Network.handle_chain_response. The temporary Blockchain the source
creates for validation runs genesis construction, which registers a
fresh randomly drawn wallet in both process-wide registries; that wallet
is an explicit input here. Acceptance replaces chain, balances and
mempool and re-seeds both broadcast-seen sets from the adopted chain. -/
def handle_chain_response (n : Node) (received_chain_dicts : List BlockRecord)
    (fresh_wallet : Wallet) : Node :=
  if received_chain_dicts = [] then n
  else if received_chain_dicts.length ≤ n.chain.length then n
  else
    let prospective_chain := received_chain_dicts.map Block.from_dict
    let keys' := setStr n.user_public_keys fresh_wallet.address fresh_wallet.key
    let wallets' := setStr n.validator_wallets fresh_wallet.address fresh_wallet
    let n' := { n with user_public_keys := keys', validator_wallets := wallets' }
    match prospective_chain with
    | [] => n'
    | g :: rest =>
      if n.chain.length > 1 ∧ g.hash ≠ ((n.chain.head?.map (fun b => b.hash)).getD "") then n'
      else
        match lookupStr keys' g.validator_address with
        | none => n'
        | some gpk =>
          if ¬ g.verify_block_signature gpk then n'
          else
            match validate_prospective keys' rest 1 g (bset [] g.validator_address n.total_supply_epc) with
            | none => n'
            | some new_balances =>
              { n' with chain := prospective_chain
                        balances := new_balances
                        pending_transactions := []
                        seen_block_hashes_broadcast := prospective_chain.map (fun b => b.hash)
                        seen_tx_ids_broadcast :=
                          (prospective_chain.map (fun b =>
                            b.transactions.map (fun tx => tx.transaction_id))).flatten }

/-- Network.request_chain_from_peer: guarded by the sync flag; the peer's
GET-chain response is an external input (none models a failed request or
a body missing the required keys); the flag is cleared afterwards. -/
def request_chain_from_peer (n : Node) (peer_response : Option (List BlockRecord))
    (fresh_wallet : Wallet) : Node :=
  if n.syncing_in_progress then n
  else
    let n1 := { n with syncing_in_progress := true }
    let n2 :=
      match peer_response with
      | none => n1
      | some chain_records => handle_chain_response n1 chain_records fresh_wallet
    { n2 with syncing_in_progress := false }

/-- Application loop of handle_received_block: the source folds
_process_transaction_for_state_changes over every transaction of the
accepted block, ignoring the per-transaction result. -/
def apply_all_transactions : List Transaction → Balances → Balances
  | [], balances => balances
  | tx :: rest, balances =>
    apply_all_transactions rest (process_transaction_for_state_changes balances tx).2

/-- Native-transfer simulation of handle_received_block on a snapshot of
the live balances, rejecting the whole block at the first unaffordable
debit. -/
def replay_transactions : List Transaction → Balances → Option Balances
  | [], temp => some temp
  | tx :: rest, temp =>
    if tx.asset_id = NATIVE_CURRENCY_SYMBOL then
      let sb := bget temp tx.sender_address
      if sb < tx.amount then none
      else
        let t1 := bset temp tx.sender_address (sb - tx.amount)
        replay_transactions rest
          (bset t1 tx.receiver_address (bget t1 tx.receiver_address + tx.amount))
    else replay_transactions rest temp

/-- Network.handle_received_block. The fork-or-behind branch performs a
chain pull whose peer response is an external input, supplied as an
oracle together with the fresh wallet the resulting temporary Blockchain
registers. -/
def handle_received_block (n : Node) (r : BlockRecord)
    (peer_response : Option (List BlockRecord)) (fresh_wallet : Wallet) : Bool × Node :=
  let received_block := Block.from_dict r
  if n.chain.any (fun b => b.hash == received_block.hash) then (true, n)
  else
    let current_chain_length := n.chain.length
    let last_block := n.chain.getLast?
    match lookupStr n.user_public_keys received_block.validator_address with
    | none => (false, n)
    | some validator_pub_key =>
      if received_block.hash ≠ received_block.calculate_block_hash then (false, n)
      else if ¬ received_block.verify_block_signature validator_pub_key then (false, n)
      else if ¬ (received_block.transactions.all (fun tx =>
          match lookupStr n.user_public_keys tx.sender_address with
          | none => false
          | some pk => tx.verify_signature pk)) then (false, n)
      else if received_block.index == current_chain_length &&
          ((match last_block with
            | some lb => received_block.previous_hash == lb.hash
            | none => false) ||
            (current_chain_length == 0 && received_block.previous_hash == "0")) then
        match replay_transactions received_block.transactions n.balances with
        | none => (false, n)
        | some _ =>
          let mined_ids := received_block.transactions.map (fun tx => tx.transaction_id)
          let n1 := { n with
            balances := apply_all_transactions received_block.transactions n.balances
            chain := n.chain ++ [received_block]
            pending_transactions := n.pending_transactions.filter
              (fun ptx => ¬ mined_ids.contains ptx.transaction_id) }
          if ¬ n1.seen_block_hashes_broadcast.contains received_block.hash then
            (true, broadcast_block n1 received_block)
          else (true, n1)
      else if received_block.index ≥ current_chain_length ∧ ¬ n.syncing_in_progress then
        match n.peers.head? with
        | some _ => (false, request_chain_from_peer n peer_response fresh_wallet)
        | none => (false, n)
      else (false, n)

/-! Helper lemmas on strings and balance tables. -/

theorem string_append_cancel_right {a b c : String} (h : a ++ c = b ++ c) : a = b := by
  apply String.ext
  have hd : a.data ++ c.data = b.data ++ c.data := by
    simpa [String.data_append] using congrArg String.data h
  exact List.append_cancel_right hd

theorem string_append_cancel_left {a b c : String} (h : a ++ b = a ++ c) : b = c := by
  apply String.ext
  have hd : a.data ++ b.data = a.data ++ c.data := by
    simpa [String.data_append] using congrArg String.data h
  exact List.append_cancel_left hd

theorem bsum_cons (kv : String × ℚ) (rest : Balances) : bsum (kv :: rest) = kv.2 + bsum rest := by
  simp [bsum]

theorem bsum_bset (b : Balances) (k : String) (v : ℚ) :
    bsum (bset b k v) = bsum b - bget b k + v := by
  induction b with
  | nil => simp [bset, bget, bsum]
  | cons kv rest ih =>
    by_cases h : kv.1 = k
    · simp [bset, bget, bsum, h]
      ring
    · have hs : bsum (bset (kv :: rest) k v) = kv.2 + bsum (bset rest k v) := by
        simp [bset, h, bsum_cons]
      rw [hs, ih, bsum_cons]
      simp [bget, h]
      ring

theorem bsum_process (b : Balances) (t : Transaction) :
    bsum (process_transaction_for_state_changes b t).2 = bsum b := by
  unfold process_transaction_for_state_changes
  by_cases hasset : t.asset_id ≠ NATIVE_CURRENCY_SYMBOL
  · simp [hasset]
  · by_cases hfunds : bget b t.sender_address < t.amount
    · simp [hasset, hfunds]
    · simp [hasset, hfunds, bsum_bset]
      ring

theorem bsum_apply_transactions (txs : List Transaction) (b : Balances) :
    bsum (apply_transactions txs b).2 = bsum b := by
  induction txs generalizing b with
  | nil => simp [apply_transactions]
  | cons tx rest ih =>
    unfold apply_transactions
    by_cases hok : (process_transaction_for_state_changes b tx).1
    · simp only [hok, if_pos]
      rw [ih, bsum_process]
    · simp only [hok]
      simpa using bsum_process b tx

theorem bsum_apply_all_transactions (txs : List Transaction) (b : Balances) :
    bsum (apply_all_transactions txs b) = bsum b := by
  induction txs generalizing b with
  | nil => simp [apply_all_transactions]
  | cons tx rest ih =>
    unfold apply_all_transactions
    rw [ih, bsum_process]

theorem bsum_validate_block_txs (keys : List (String × String)) (txs : List Transaction)
    (b b' : Balances) (h : validate_block_txs keys txs b = some b') : bsum b' = bsum b := by
  induction txs generalizing b with
  | nil =>
    simp only [validate_block_txs, Option.some.injEq] at h
    rw [← h]
  | cons tx rest ih =>
    unfold validate_block_txs at h
    cases hk : lookupStr keys tx.sender_address with
    | none => simp [hk] at h
    | some pk =>
      simp only [hk] at h
      by_cases hv : tx.verify_signature pk
      · simp only [hv, not_true, if_neg, ite_false, ite_true] at h
        by_cases ha : tx.asset_id = NATIVE_CURRENCY_SYMBOL
        · simp only [ha, if_pos, ite_true] at h
          by_cases hb : bget b tx.sender_address < tx.amount
          · simp [hb] at h
          · simp only [hb, ite_false] at h
            have := ih _ h
            rw [this, bsum_bset, bsum_bset]
            ring
        · simp only [ha, ite_false] at h
          exact ih _ h
      · simp [hv] at h

theorem bsum_validate_prospective (keys : List (String × String)) (bs : List Block)
    (len : Nat) (prev : Block) (b b' : Balances)
    (h : validate_prospective keys bs len prev b = some b') : bsum b' = bsum b := by
  induction bs generalizing len prev b with
  | nil =>
    simp only [validate_prospective, Option.some.injEq] at h
    rw [← h]
  | cons blk rest ih =>
    unfold validate_prospective at h
    by_cases hs : blk.previous_hash ≠ prev.hash ∨ blk.index ≠ len ∨
        blk.hash ≠ blk.calculate_block_hash
    · simp [hs] at h
    · simp only [hs, ite_false, if_neg, not_false_iff] at h
      cases hk : lookupStr keys blk.validator_address with
      | none => simp [hk] at h
      | some vpk =>
        simp only [hk] at h
        by_cases hv : blk.verify_block_signature vpk
        · simp only [hv, not_true, ite_true, ite_false] at h
          cases ht : validate_block_txs keys blk.transactions b with
          | none => simp [ht] at h
          | some bal' =>
            simp only [ht] at h
            have h1 := ih _ _ _ h
            rw [h1, bsum_validate_block_txs keys _ _ _ ht]
        · simp [hv] at h

/-- C10: Blockchain.add_transaction leaves the chain and the balance
table unchanged whatever its outcome; the only ledger state it may
modify is the pending-transactions list, and only by appending the
given transaction. -/
theorem add_transaction_frame (n : Node) (t : Transaction) (pk : String) (flag : Bool) :
    (add_transaction n t pk flag).2.chain = n.chain ∧
    (add_transaction n t pk flag).2.balances = n.balances ∧
    ((add_transaction n t pk flag).2.pending_transactions = n.pending_transactions ∨
      (add_transaction n t pk flag).2.pending_transactions = n.pending_transactions ++ [t]) := by
  unfold add_transaction broadcast_transaction
  dsimp only
  repeat' split
  all_goals first
    | exact ⟨rfl, rfl, Or.inl rfl⟩
    | exact ⟨rfl, rfl, Or.inr rfl⟩

/-- C7 (the code at the failing input): a wallet whose address differs
from the transaction's sender_address still signs the transaction,
producing a signature that verifies under the signing wallet's own key,
instead of rejecting the mismatch as the source's docstring promises. -/
theorem sign_address_mismatch_not_rejected :
    (("Emp1aaaa" : String) ≠ "Emp1bbbb") ∧
    (((Transaction.init "Emp1bbbb" "Emp1cccc" 5 "EPC" 0 0 [] none).sign
        ⟨"Emp1aaaa", "key1"⟩).signature_hex).isSome = true ∧
    ((Transaction.init "Emp1bbbb" "Emp1cccc" 5 "EPC" 0 0 [] none).sign
        ⟨"Emp1aaaa", "key1"⟩).verify_signature "key1" = true := by
  refine ⟨by decide, by decide, by decide⟩

/-- C6 (the code at the failing input): after a contained transaction's
amount is mutated, verify_block_signature still accepts against the
stored hash; but the recomputed header hash also still equals the stored
hash, because the transaction fingerprint concatenates construction-time
transaction_id snapshots, which the mutation leaves unchanged. Only the
transaction-signature step of chain validation can catch the corruption;
the hash-comparison step cannot, contrary to the claim and to the
module's own demo assertions. -/
theorem tampered_block_recomputed_hash_unchanged :
    (let tx := (Transaction.init "a" "b" 10 "EPC" 0 0 [] none).sign ⟨"a", "ka"⟩
     let blk := (Block.init 1 [tx] 0 "ph" "v" none).sign_block ⟨"v", "kv"⟩
     let tampered : Block := { blk with transactions := [{ tx with amount := 999 }] }
     tampered.transactions ≠ blk.transactions ∧
       tampered.verify_block_signature "kv" = true ∧
       tampered.calculate_block_hash = tampered.hash) := by
  refine ⟨by decide, by decide, by decide⟩

theorem append_cancel_left_iff {a b c : String} : a ++ b = a ++ c ↔ b = c :=
  ⟨string_append_cancel_left, fun h => by rw [h]⟩

theorem append_cancel_right_iff {a c b : String} : a ++ b = c ++ b ↔ a = c :=
  ⟨string_append_cancel_right, fun h => by rw [h]⟩

/-! Python attribute assignment on a stored transaction record: one field
changes, the construction-time transaction_id snapshot is untouched. -/

def setSender (t : Transaction) (x : String) : Transaction := { t with sender_address := x }

def setReceiver (t : Transaction) (x : String) : Transaction := { t with receiver_address := x }

def setAmount (t : Transaction) (x : ℚ) : Transaction := { t with amount := x }

def setAsset (t : Transaction) (x : String) : Transaction := { t with asset_id := x }

def setTimestamp (t : Transaction) (x : ℚ) : Transaction := { t with timestamp := x }

def setFee (t : Transaction) (x : ℚ) : Transaction := { t with fee := x }

def setMetadata (t : Transaction) (x : List (String × String)) : Transaction :=
  { t with metadata := x }

@[simp] theorem sign_sender (t : Transaction) (w : Wallet) :
    (t.sign w).sender_address = t.sender_address := rfl

@[simp] theorem sign_receiver (t : Transaction) (w : Wallet) :
    (t.sign w).receiver_address = t.receiver_address := rfl

@[simp] theorem sign_amount (t : Transaction) (w : Wallet) : (t.sign w).amount = t.amount := rfl

@[simp] theorem sign_asset (t : Transaction) (w : Wallet) : (t.sign w).asset_id = t.asset_id := rfl

@[simp] theorem sign_timestamp (t : Transaction) (w : Wallet) :
    (t.sign w).timestamp = t.timestamp := rfl

@[simp] theorem sign_fee (t : Transaction) (w : Wallet) : (t.sign w).fee = t.fee := rfl

@[simp] theorem sign_metadata (t : Transaction) (w : Wallet) :
    (t.sign w).metadata = t.metadata := rfl

/-- Right-associated reading of get_data_for_signing, used to cancel
components one by one. -/
theorem gdfs_assoc (t : Transaction) :
    t.get_data_for_signing =
      t.sender_address ++ (t.receiver_address ++ (fmtFixed8 t.amount ++ (t.asset_id ++
        (fmtFixed6 t.timestamp ++ (fmtFixed8 t.fee ++ metaJson t.metadata))))) := by
  simp [Transaction.get_data_for_signing, String.append_assoc]

/-- Verification of a transaction carrying the signature produced by
sign reduces to comparing the re-serialised data with the data signed. -/
theorem verify_signature_of_signed (w : Wallet) (t t' : Transaction)
    (hsig : t'.signature_hex = (t.sign w).signature_hex) :
    t'.verify_signature w.key =
      (Transaction.get_data_for_signing t == Transaction.get_data_for_signing t') := by
  simp only [Transaction.verify_signature, Transaction.sign, Wallet.sign_data, sha256] at hsig ⊢
  rw [hsig]
  simp [Wallet.verify, sha256, Bool.and_comm]

/-- Right-associated serialisation after each single-field mutation. -/
theorem gdfs_setSender (t : Transaction) (x : String) :
    (setSender t x).get_data_for_signing =
      x ++ (t.receiver_address ++ (fmtFixed8 t.amount ++ (t.asset_id ++
        (fmtFixed6 t.timestamp ++ (fmtFixed8 t.fee ++ metaJson t.metadata))))) := by
  simp [setSender, Transaction.get_data_for_signing, String.append_assoc]

theorem gdfs_setReceiver (t : Transaction) (x : String) :
    (setReceiver t x).get_data_for_signing =
      t.sender_address ++ (x ++ (fmtFixed8 t.amount ++ (t.asset_id ++
        (fmtFixed6 t.timestamp ++ (fmtFixed8 t.fee ++ metaJson t.metadata))))) := by
  simp [setReceiver, Transaction.get_data_for_signing, String.append_assoc]

theorem gdfs_setAmount (t : Transaction) (x : ℚ) :
    (setAmount t x).get_data_for_signing =
      t.sender_address ++ (t.receiver_address ++ (fmtFixed8 x ++ (t.asset_id ++
        (fmtFixed6 t.timestamp ++ (fmtFixed8 t.fee ++ metaJson t.metadata))))) := by
  simp [setAmount, Transaction.get_data_for_signing, String.append_assoc]

theorem gdfs_setAsset (t : Transaction) (x : String) :
    (setAsset t x).get_data_for_signing =
      t.sender_address ++ (t.receiver_address ++ (fmtFixed8 t.amount ++ (x ++
        (fmtFixed6 t.timestamp ++ (fmtFixed8 t.fee ++ metaJson t.metadata))))) := by
  simp [setAsset, Transaction.get_data_for_signing, String.append_assoc]

theorem gdfs_setTimestamp (t : Transaction) (x : ℚ) :
    (setTimestamp t x).get_data_for_signing =
      t.sender_address ++ (t.receiver_address ++ (fmtFixed8 t.amount ++ (t.asset_id ++
        (fmtFixed6 x ++ (fmtFixed8 t.fee ++ metaJson t.metadata))))) := by
  simp [setTimestamp, Transaction.get_data_for_signing, String.append_assoc]

theorem gdfs_setFee (t : Transaction) (x : ℚ) :
    (setFee t x).get_data_for_signing =
      t.sender_address ++ (t.receiver_address ++ (fmtFixed8 t.amount ++ (t.asset_id ++
        (fmtFixed6 t.timestamp ++ (fmtFixed8 x ++ metaJson t.metadata))))) := by
  simp [setFee, Transaction.get_data_for_signing, String.append_assoc]

theorem gdfs_setMetadata (t : Transaction) (x : List (String × String)) :
    (setMetadata t x).get_data_for_signing =
      t.sender_address ++ (t.receiver_address ++ (fmtFixed8 t.amount ++ (t.asset_id ++
        (fmtFixed6 t.timestamp ++ (fmtFixed8 t.fee ++ metaJson x))))) := by
  simp [setMetadata, Transaction.get_data_for_signing, String.append_assoc]

/-- C5 counterexample: mutating the amount of a signed transaction from
0 to 10^-9 leaves verify_signature true, because the serialisation
formats amounts at 8 decimal places and both values render identically;
so a mutation of a signed field does not always break verification. -/
theorem verify_true_after_subprecision_amount_mutation :
    (let t := (Transaction.init "a" "b" 0 "EPC" 0 0 [] none).sign ⟨"a", "k"⟩
     let mutated : Transaction := setAmount t (1 / 1000000000)
     mutated.amount ≠ t.amount ∧ mutated.verify_signature "k" = true) := by
  refine ⟨by decide, by decide⟩

/-- C5 amended: sign-then-verify holds with the signer's public key and
fails with any other wallet's key; mutating a signed field after signing
breaks verification exactly when the field's fixed-precision serialised
form changes (string fields: any change; amount and fee: a change of the
8-decimal rendering; timestamp: a change of the 6-decimal rendering;
metadata: a change of the sorted-key serialisation), and restoring the
original field value restores verification, since verification
re-serialises the current field values. -/
theorem sign_verify_mutation_detection :
    (∀ (w : Wallet) (t : Transaction), (t.sign w).verify_signature w.key = true) ∧
    (∀ (w w' : Wallet) (t : Transaction), w'.key ≠ w.key →
      (t.sign w).verify_signature w'.key = false) ∧
    (∀ (w : Wallet) (t : Transaction) (x : String),
      (setSender (t.sign w) x).verify_signature w.key = false ↔ x ≠ t.sender_address) ∧
    (∀ (w : Wallet) (t : Transaction) (x : String),
      (setReceiver (t.sign w) x).verify_signature w.key = false ↔ x ≠ t.receiver_address) ∧
    (∀ (w : Wallet) (t : Transaction) (x : ℚ),
      (setAmount (t.sign w) x).verify_signature w.key = false ↔
        fmtFixed8 x ≠ fmtFixed8 t.amount) ∧
    (∀ (w : Wallet) (t : Transaction) (x : String),
      (setAsset (t.sign w) x).verify_signature w.key = false ↔ x ≠ t.asset_id) ∧
    (∀ (w : Wallet) (t : Transaction) (x : ℚ),
      (setTimestamp (t.sign w) x).verify_signature w.key = false ↔
        fmtFixed6 x ≠ fmtFixed6 t.timestamp) ∧
    (∀ (w : Wallet) (t : Transaction) (x : ℚ),
      (setFee (t.sign w) x).verify_signature w.key = false ↔ fmtFixed8 x ≠ fmtFixed8 t.fee) ∧
    (∀ (w : Wallet) (t : Transaction) (x : List (String × String)),
      (setMetadata (t.sign w) x).verify_signature w.key = false ↔
        metaJson x ≠ metaJson t.metadata) := by
  have hver : ∀ (w : Wallet) (t t' : Transaction),
      t'.signature_hex = (t.sign w).signature_hex →
      (t'.verify_signature w.key = false ↔
        Transaction.get_data_for_signing t ≠ Transaction.get_data_for_signing t') := by
    intro w t t' hsig
    rw [verify_signature_of_signed w t t' hsig]
    simp
  refine ⟨?_, ?_, ?_, ?_, ?_, ?_, ?_, ?_, ?_⟩
  · intro w t
    rw [verify_signature_of_signed w t (t.sign w) rfl]
    simp [Transaction.sign, Transaction.get_data_for_signing]
  · intro w w' t h
    simp only [Transaction.verify_signature, Transaction.sign, Wallet.sign_data, Wallet.verify]
    simp
    intro hk
    exact absurd hk.symm h
  · intro w t x
    rw [hver w t (setSender (t.sign w) x) rfl, gdfs_assoc, gdfs_setSender]
    simp only [sign_sender, sign_receiver, sign_amount, sign_asset, sign_timestamp, sign_fee,
      sign_metadata, ne_eq, append_cancel_right_iff]
    exact not_congr eq_comm
  · intro w t x
    rw [hver w t (setReceiver (t.sign w) x) rfl, gdfs_assoc, gdfs_setReceiver]
    simp only [sign_sender, sign_receiver, sign_amount, sign_asset, sign_timestamp, sign_fee,
      sign_metadata, ne_eq, append_cancel_left_iff, append_cancel_right_iff]
    exact not_congr eq_comm
  · intro w t x
    rw [hver w t (setAmount (t.sign w) x) rfl, gdfs_assoc, gdfs_setAmount]
    simp only [sign_sender, sign_receiver, sign_amount, sign_asset, sign_timestamp, sign_fee,
      sign_metadata, ne_eq, append_cancel_left_iff, append_cancel_right_iff]
    exact not_congr eq_comm
  · intro w t x
    rw [hver w t (setAsset (t.sign w) x) rfl, gdfs_assoc, gdfs_setAsset]
    simp only [sign_sender, sign_receiver, sign_amount, sign_asset, sign_timestamp, sign_fee,
      sign_metadata, ne_eq, append_cancel_left_iff, append_cancel_right_iff]
    exact not_congr eq_comm
  · intro w t x
    rw [hver w t (setTimestamp (t.sign w) x) rfl, gdfs_assoc, gdfs_setTimestamp]
    simp only [sign_sender, sign_receiver, sign_amount, sign_asset, sign_timestamp, sign_fee,
      sign_metadata, ne_eq, append_cancel_left_iff, append_cancel_right_iff]
    exact not_congr eq_comm
  · intro w t x
    rw [hver w t (setFee (t.sign w) x) rfl, gdfs_assoc, gdfs_setFee]
    simp only [sign_sender, sign_receiver, sign_amount, sign_asset, sign_timestamp, sign_fee,
      sign_metadata, ne_eq, append_cancel_left_iff, append_cancel_right_iff]
    exact not_congr eq_comm
  · intro w t x
    rw [hver w t (setMetadata (t.sign w) x) rfl, gdfs_assoc, gdfs_setMetadata]
    simp only [sign_sender, sign_receiver, sign_amount, sign_asset, sign_timestamp, sign_fee,
      sign_metadata, ne_eq, append_cancel_left_iff]
    exact not_congr eq_comm

/-- Witness for the amended C5 theorem at concrete inputs: two wallets
with distinct keys, a concrete transaction, and a concrete amount whose
8-decimal rendering differs. -/
theorem sign_verify_mutation_detection_witness :
    (((Transaction.init "a" "b" 0 "EPC" 0 0 [] none).sign ⟨"a", "k"⟩).verify_signature "k"
        = true) ∧
    ((("k2" : String) ≠ "k") ∧
      ((Transaction.init "a" "b" 0 "EPC" 0 0 [] none).sign ⟨"a", "k"⟩).verify_signature "k2"
        = false) ∧
    (setAmount ((Transaction.init "a" "b" 0 "EPC" 0 0 [] none).sign ⟨"a", "k"⟩)
        7).verify_signature "k" = false := by
  have h := sign_verify_mutation_detection
  refine ⟨?_, ⟨by decide, ?_⟩, ?_⟩
  · exact h.1 ⟨"a", "k"⟩ (Transaction.init "a" "b" 0 "EPC" 0 0 [] none)
  · exact h.2.1 ⟨"a", "k2"⟩ ⟨"a", "k"⟩ (Transaction.init "a" "b" 0 "EPC" 0 0 [] none) (by decide)
  · exact (h.2.2.2.2.1 ⟨"a", "k"⟩ (Transaction.init "a" "b" 0 "EPC" 0 0 [] none) 7).mpr
      (by decide)

/-- C1 counterexample, two runs of the real pipeline. First run: a
transaction spending the sender's whole balance is accepted into the
mempool; re-submitting the identical transaction is rejected (returns
failure), because the available-balance pre-check runs before the
mempool-duplicate check and counts the duplicate's own pending amount.
Second run: a transaction already committed inside a mined block and no
longer pending is accepted again into the mempool (add_transaction
checks only the pending list, never committed blocks), so the mempool
gains a copy of an already-committed transaction. -/
theorem add_transaction_not_idempotent :
    (let g : Wallet := ⟨"g", "kg"⟩
     let n0 := createBlockchain g 0
     let t := (Transaction.init "g" "r" 1000000 "EPC" 1 0 [] none).sign g
     let r1 := add_transaction n0 t "kg" false
     r1.1 = true ∧
       (r1.2.pending_transactions.any (fun tx => tx.transaction_id == t.transaction_id)) = true ∧
       (add_transaction r1.2 t "kg" false).1 = false) ∧
    (let g : Wallet := ⟨"g", "kg"⟩
     let v : Wallet := ⟨"v", "kv"⟩
     let n1 := register_validator_wallet (createBlockchain g 0) v 150 0
     let t2 := (Transaction.init "g" "r" 5 "EPC" 2 0 [] none).sign g
     let n2 := (add_transaction n1 t2 "kg" false).2
     let n3 := (mine_pending_transactions n2 3).2
     (n3.chain.any (fun b =>
        b.transactions.any (fun tx => tx.transaction_id == t2.transaction_id))) = true ∧
       n3.pending_transactions = [] ∧
       add_transaction n3 t2 "kg" false = (true, { n3 with pending_transactions := [t2] })) := by
  constructor
  · refine ⟨by decide, by decide, by decide⟩
  · refine ⟨by decide, by decide, by decide⟩

/-- C1 amended: add_transaction is idempotent only with respect to the
mempool and only behind its earlier checks: when the identifier is
already pending, the signature verifies, and (for native transfers) the
available balance — which counts the duplicate's own pending amount —
still covers the amount, it returns success and leaves the state
unchanged. Deduplication against committed blocks is not performed by
add_transaction; it is Network.handle_received_transaction that returns
success without any state change for an identifier found in a committed
block (or in the mempool). -/
theorem add_transaction_mempool_idempotence :
    (∀ (n : Node) (t : Transaction) (pk : String) (flag : Bool),
      (n.pending_transactions.any (fun tx => tx.transaction_id == t.transaction_id)) = true →
      t.verify_signature pk = true →
      (t.asset_id = NATIVE_CURRENCY_SYMBOL →
        t.amount ≤ bget n.balances t.sender_address - pending_outgoing n t.sender_address) →
      add_transaction n t pk flag = (true, n)) ∧
    (∀ (n : Node) (r : TxRecord),
      (n.chain.any (fun b => b.transactions.any
        (fun tx => tx.transaction_id == r.transaction_id))) = true →
      handle_received_transaction n r = (true, n)) := by
  constructor
  · intro n t pk flag hdup hver hfunds
    unfold add_transaction
    simp only [hver, hdup]
    by_cases ha : t.asset_id = NATIVE_CURRENCY_SYMBOL
    · simp [ha, hfunds ha]
    · simp [ha]
  · intro n r hin
    unfold handle_received_transaction
    simp [hin]

/-- Witness for the amended C1 theorem: a pending duplicate with ample
balance is re-accepted without duplication, and a committed identifier
short-circuits the network handler. -/
theorem add_transaction_mempool_idempotence_witness :
    (let g : Wallet := ⟨"g", "kg"⟩
     let n0 := createBlockchain g 0
     let t := (Transaction.init "g" "r" 5 "EPC" 1 0 [] none).sign g
     let n1 := (add_transaction n0 t "kg" false).2
     ((n1.pending_transactions.any (fun tx => tx.transaction_id == t.transaction_id)) = true ∧
       t.verify_signature "kg" = true ∧
       (t.asset_id = NATIVE_CURRENCY_SYMBOL →
         t.amount ≤ bget n1.balances t.sender_address - pending_outgoing n1 t.sender_address)) ∧
      add_transaction n1 t "kg" false = (true, n1)) ∧
    (let g : Wallet := ⟨"g", "kg"⟩
     let v : Wallet := ⟨"v", "kv"⟩
     let n1 := register_validator_wallet (createBlockchain g 0) v 150 0
     let t2 := (Transaction.init "g" "r" 5 "EPC" 2 0 [] none).sign g
     let n3 := (mine_pending_transactions (add_transaction n1 t2 "kg" false).2 3).2
     (n3.chain.any (fun b => b.transactions.any
        (fun tx => tx.transaction_id == t2.to_dict.transaction_id))) = true ∧
       handle_received_transaction n3 t2.to_dict = (true, n3)) := by
  constructor
  · refine ⟨⟨by decide, by decide, by decide⟩, ?_⟩
    exact add_transaction_mempool_idempotence.1 _ _ _ _ (by decide) (by decide) (by decide)
  · refine ⟨by decide, ?_⟩
    exact add_transaction_mempool_idempotence.2 _ _ (by decide)

theorem add_transaction_preserves_bsum (n : Node) (t : Transaction) (pk : String) (flag : Bool) :
    bsum (add_transaction n t pk flag).2.balances = bsum n.balances ∧
    (add_transaction n t pk flag).2.total_supply_epc = n.total_supply_epc := by
  have h := add_transaction_frame n t pk flag
  refine ⟨by rw [h.2.1], ?_⟩
  unfold add_transaction broadcast_transaction
  dsimp only
  repeat' split
  all_goals rfl

theorem mine_preserves_bsum (n : Node) (now : ℚ) :
    bsum (mine_pending_transactions n now).2.balances = bsum n.balances ∧
    (mine_pending_transactions n now).2.total_supply_epc = n.total_supply_epc := by
  unfold mine_pending_transactions broadcast_block
  dsimp only
  repeat' split
  all_goals simp_all [bsum_apply_transactions]

theorem hcr_balances (n : Node) (rc : List BlockRecord) (fw : Wallet) :
    (bsum (handle_chain_response n rc fw).balances = bsum n.balances ∨
      bsum (handle_chain_response n rc fw).balances = n.total_supply_epc) ∧
    (handle_chain_response n rc fw).total_supply_epc = n.total_supply_epc := by
  unfold handle_chain_response
  dsimp only
  repeat' split
  all_goals try exact ⟨Or.inl rfl, rfl⟩
  case _ g rest _ _ _ bal hval =>
    refine ⟨Or.inr ?_, rfl⟩
    have h1 := bsum_validate_prospective _ _ _ _ _ _ hval
    rw [h1, bsum_bset]
    simp [bsum, bget]

theorem rcfp_balances (n : Node) (resp : Option (List BlockRecord)) (fw : Wallet) :
    (bsum (request_chain_from_peer n resp fw).balances = bsum n.balances ∨
      bsum (request_chain_from_peer n resp fw).balances = n.total_supply_epc) ∧
    (request_chain_from_peer n resp fw).total_supply_epc = n.total_supply_epc := by
  unfold request_chain_from_peer
  dsimp only
  split
  · exact ⟨Or.inl rfl, rfl⟩
  · split
    · exact ⟨Or.inl rfl, rfl⟩
    case _ rc =>
      exact hcr_balances { n with syncing_in_progress := true } rc fw

theorem hrb_balances (n : Node) (r : BlockRecord) (resp : Option (List BlockRecord))
    (fw : Wallet) :
    (bsum (handle_received_block n r resp fw).2.balances = bsum n.balances ∨
      bsum (handle_received_block n r resp fw).2.balances = n.total_supply_epc) ∧
    (handle_received_block n r resp fw).2.total_supply_epc = n.total_supply_epc := by
  unfold handle_received_block broadcast_block
  dsimp only
  repeat' split
  all_goals try exact ⟨Or.inl rfl, rfl⟩
  all_goals try exact ⟨Or.inl (by simp [bsum_apply_all_transactions]), rfl⟩
  all_goals exact rcfp_balances n resp fw

/-- C3: the sum of all balance-table entries equals the fixed total
native supply after genesis construction, where the entire supply is
credited to the genesis validator's address, and the sum-equals-supply
invariant is preserved (with the supply constant) by add_transaction, by
mine_pending_transactions, and by network block ingestion including the
chain pull its fork branch may trigger. -/
theorem total_supply_conservation :
    (∀ (w : Wallet) (now : ℚ),
      bsum (createBlockchain w now).balances = (createBlockchain w now).total_supply_epc ∧
      bget (createBlockchain w now).balances w.address = INITIAL_SUPPLY_EPC ∧
      (createBlockchain w now).total_supply_epc = INITIAL_SUPPLY_EPC) ∧
    (∀ (n : Node) (t : Transaction) (pk : String) (flag : Bool),
      bsum n.balances = n.total_supply_epc →
      bsum (add_transaction n t pk flag).2.balances =
        (add_transaction n t pk flag).2.total_supply_epc) ∧
    (∀ (n : Node) (now : ℚ),
      bsum n.balances = n.total_supply_epc →
      bsum (mine_pending_transactions n now).2.balances =
        (mine_pending_transactions n now).2.total_supply_epc) ∧
    (∀ (n : Node) (r : BlockRecord) (resp : Option (List BlockRecord)) (fw : Wallet),
      bsum n.balances = n.total_supply_epc →
      bsum (handle_received_block n r resp fw).2.balances =
        (handle_received_block n r resp fw).2.total_supply_epc) := by
  refine ⟨?_, ?_, ?_, ?_⟩
  · intro w now
    refine ⟨?_, ?_, rfl⟩
    · show bsum (bset [] w.address INITIAL_SUPPLY_EPC) = INITIAL_SUPPLY_EPC
      rw [bsum_bset]
      simp [bsum, bget]
    · simp [createBlockchain, bget, bset]
  · intro n t pk flag h
    have hp := add_transaction_preserves_bsum n t pk flag
    rw [hp.1, hp.2, h]
  · intro n now h
    have hp := mine_preserves_bsum n now
    rw [hp.1, hp.2, h]
  · intro n r resp fw h
    have hp := hrb_balances n r resp fw
    rcases hp.1 with h1 | h1
    · rw [h1, hp.2, h]
    · rw [h1, hp.2]

/-- Witness for C3 at concrete inputs: the genesis state satisfies the
sum-equals-supply hypothesis and each operation preserves it. -/
theorem total_supply_conservation_witness :
    (bsum (createBlockchain ⟨"g", "kg"⟩ 0).balances =
      (createBlockchain ⟨"g", "kg"⟩ 0).total_supply_epc ∧
      bget (createBlockchain ⟨"g", "kg"⟩ 0).balances "g" = INITIAL_SUPPLY_EPC ∧
      (createBlockchain ⟨"g", "kg"⟩ 0).total_supply_epc = INITIAL_SUPPLY_EPC) ∧
    (bsum (createBlockchain ⟨"g", "kg"⟩ 0).balances =
        (createBlockchain ⟨"g", "kg"⟩ 0).total_supply_epc ∧
      bsum (mine_pending_transactions (createBlockchain ⟨"g", "kg"⟩ 0) 1).2.balances =
        (mine_pending_transactions (createBlockchain ⟨"g", "kg"⟩ 0) 1).2.total_supply_epc) ∧
    bsum (handle_received_block (createBlockchain ⟨"g", "kg"⟩ 0)
        (Block.to_dict ((createBlockchain ⟨"g", "kg"⟩ 0).chain.headD
          (Block.init 0 [] 0 "0" "g" none))) none ⟨"f", "kf"⟩).2.balances =
      (handle_received_block (createBlockchain ⟨"g", "kg"⟩ 0)
        (Block.to_dict ((createBlockchain ⟨"g", "kg"⟩ 0).chain.headD
          (Block.init 0 [] 0 "0" "g" none))) none ⟨"f", "kf"⟩).2.total_supply_epc := by
  refine ⟨total_supply_conservation.1 ⟨"g", "kg"⟩ 0, ⟨?_, ?_⟩, ?_⟩
  · exact (total_supply_conservation.1 ⟨"g", "kg"⟩ 0).1
  · exact total_supply_conservation.2.2.1 (createBlockchain ⟨"g", "kg"⟩ 0) 1
      (total_supply_conservation.1 ⟨"g", "kg"⟩ 0).1
  · exact total_supply_conservation.2.2.2 (createBlockchain ⟨"g", "kg"⟩ 0) _ none ⟨"f", "kf"⟩
      (total_supply_conservation.1 ⟨"g", "kg"⟩ 0).1

theorem tx_record_roundtrip (t : Transaction)
    (h : t.transaction_id = t.calculate_transaction_id) :
    Transaction.from_dict (Transaction.to_dict t) = t := by
  cases t with
  | mk sender receiver amount asset ts fee meta sig txid =>
    simp only [Transaction.from_dict, Transaction.to_dict, Transaction.init]
    simp only [Transaction.calculate_transaction_id] at h
    simp [h, Transaction.calculate_transaction_id, Transaction.get_data_for_signing]

/-- C9: the JSON record produced for the network endpoints carries every
block field of the data model (index, transactions, timestamp, previous
hash, validator address, hash) plus the signature; the GET-chain
endpoint serves exactly those records together with the chain length;
and deserialisation reconstructs the block from such a record, for
blocks whose transactions carry their construction-time identifiers
(Transaction.from_dict recomputes the identifier from the fields). -/
theorem block_record_roundtrip :
    (∀ (b : Block),
      (Block.to_dict b).index = b.index ∧
      (Block.to_dict b).transactions = b.transactions.map Transaction.to_dict ∧
      (Block.to_dict b).timestamp = b.timestamp ∧
      (Block.to_dict b).previous_hash = b.previous_hash ∧
      (Block.to_dict b).validator_address = b.validator_address ∧
      (Block.to_dict b).hash = b.hash ∧
      (Block.to_dict b).signature_hex = b.signature_hex) ∧
    (∀ (n : Node), get_chain_endpoint n = (n.chain.map Block.to_dict, n.chain.length)) ∧
    (∀ (b : Block),
      (∀ t ∈ b.transactions, t.transaction_id = t.calculate_transaction_id) →
      Block.from_dict (Block.to_dict b) = b) := by
  refine ⟨fun b => ⟨rfl, rfl, rfl, rfl, rfl, rfl, rfl⟩, fun n => rfl, ?_⟩
  intro b h
  cases b with
  | mk index txs ts prev validator sig hash =>
    simp only [Block.from_dict, Block.to_dict, List.map_map]
    have hmap : ∀ t ∈ txs, (Transaction.from_dict ∘ Transaction.to_dict) t = id t := by
      intro t ht
      simp only [Function.comp_apply, id_eq]
      exact tx_record_roundtrip t (h t ht)
    have htx : List.map (Transaction.from_dict ∘ Transaction.to_dict) txs = txs := by
      rw [List.map_congr_left hmap, List.map_id]
    simp [htx]

/-- Witness for C9's deserialisation clause at a concrete signed block
with a signed transaction. -/
theorem block_record_roundtrip_witness :
    (let tx := (Transaction.init "a" "b" 10 "EPC" 0 0 [] none).sign ⟨"a", "ka"⟩
     let blk := (Block.init 1 [tx] 0 "ph" "v" none).sign_block ⟨"v", "kv"⟩
     Block.from_dict (Block.to_dict blk) = blk) := by
  exact block_record_roundtrip.2.2 _ (by decide)

/-! Helper lemmas for the validator-rotation claim. -/

theorem lookupStr_eq_of_mem {α : Type} {l : List (String × α)} {k : String} {v : α}
    (hnd : (l.map Prod.fst).Nodup) (hmem : (k, v) ∈ l) : lookupStr l k = some v := by
  induction l with
  | nil => cases hmem
  | cons kv rest ih =>
    rcases List.mem_cons.mp hmem with h | h
    · rw [← h]
      simp [lookupStr]
    · have hk : kv.1 ≠ k := by
        intro he
        have : k ∈ rest.map Prod.fst := List.mem_map.mpr ⟨(k, v), h, rfl⟩
        rw [List.map_cons, List.nodup_cons] at hnd
        exact hnd.1 (he ▸ this)
      simp only [lookupStr, hk, if_neg, ite_false]
      exact ih (List.nodup_cons.mp (by simpa using hnd)).2 h

theorem lookupStr_mem {α : Type} {l : List (String × α)} {k : String} {v : α}
    (h : lookupStr l k = some v) : (k, v) ∈ l := by
  induction l with
  | nil => simp [lookupStr] at h
  | cons kv rest ih =>
    by_cases hk : kv.1 = k
    · simp only [lookupStr, hk, ite_true, Option.some.injEq] at h
      obtain ⟨a, b⟩ := kv
      dsimp at hk h
      subst hk
      subst h
      exact List.mem_cons_self _ _
    · simp only [lookupStr, hk, ite_false] at h
      exact List.mem_cons_of_mem _ (ih h)

theorem setStr_map_fst {α : Type} {l : List (String × α)} {k : String} {v v' : α}
    (h : lookupStr l k = some v) : (setStr l k v').map Prod.fst = l.map Prod.fst := by
  induction l with
  | nil => simp [lookupStr] at h
  | cons kv rest ih =>
    by_cases hk : kv.1 = k
    · simp [setStr, hk]
    · simp only [lookupStr, hk, ite_false] at h
      simp [setStr, hk, ih h]

theorem filter_map_fst_setStr_same_active {l : List (String × Validator)} {k : String}
    {v v' : Validator} (h : lookupStr l k = some v) (hnd : (l.map Prod.fst).Nodup)
    (hact : v'.is_active = v.is_active) :
    ((setStr l k v').filter (fun kv => kv.2.is_active)).map Prod.fst =
      (l.filter (fun kv => kv.2.is_active)).map Prod.fst := by
  induction l with
  | nil => simp [lookupStr] at h
  | cons kv rest ih =>
    by_cases hk : kv.1 = k
    · simp only [lookupStr, hk, ite_true, Option.some.injEq] at h
      subst h
      simp only [setStr, hk, ite_true]
      by_cases hb : (kv.2).is_active
      · simp [List.filter_cons, hb, hact ▸ hb, hk]
      · simp [List.filter_cons, hb, hact ▸ hb]
    · simp only [lookupStr, hk, ite_false] at h
      have hnd' : (rest.map Prod.fst).Nodup := by
        rw [List.map_cons, List.nodup_cons] at hnd
        exact hnd.2
      simp only [setStr, hk, ite_false]
      by_cases hb : (kv.2).is_active
      · simp [List.filter_cons, hb, ih h hnd']
      · simp [List.filter_cons, hb, ih h hnd']

theorem filter_map_fst_setStr_deactivate {l : List (String × Validator)} {k : String}
    {v v' : Validator} (h : lookupStr l k = some v) (hnd : (l.map Prod.fst).Nodup)
    (hv : v.is_active = true) (hv' : v'.is_active = false) :
    ((setStr l k v').filter (fun kv => kv.2.is_active)).map Prod.fst =
      ((l.filter (fun kv => kv.2.is_active)).map Prod.fst).erase k := by
  induction l with
  | nil => simp [lookupStr] at h
  | cons kv rest ih =>
    by_cases hk : kv.1 = k
    · simp only [lookupStr, hk, ite_true, Option.some.injEq] at h
      subst h
      simp only [setStr, hk, ite_true]
      simp [List.filter_cons, hv, hv', hk, List.erase_cons]
    · simp only [lookupStr, hk, ite_false] at h
      have hnd' : (rest.map Prod.fst).Nodup := by
        rw [List.map_cons, List.nodup_cons] at hnd
        exact hnd.2
      simp only [setStr, hk, ite_false]
      by_cases hb : (kv.2).is_active
      · simp [List.filter_cons, hb, ih h hnd', List.erase_cons, hk]
      · simp [List.filter_cons, hb, ih h hnd']

theorem mem_setStr {α : Type} {l : List (String × α)} {k : String} {v' : α} {kv : String × α}
    (h : kv ∈ setStr l k v') : kv = (k, v') ∨ kv ∈ l := by
  induction l with
  | nil =>
    simp only [setStr] at h
    rcases List.mem_singleton.mp h with h
    exact Or.inl h
  | cons kv0 rest ih =>
    by_cases hk : kv0.1 = k
    · simp only [setStr, hk, ite_true] at h
      rcases List.mem_cons.mp h with h | h
      · exact Or.inl h
      · exact Or.inr (List.mem_cons_of_mem _ h)
    · simp only [setStr, hk, ite_false] at h
      rcases List.mem_cons.mp h with h | h
      · exact Or.inr (h ▸ List.mem_cons_self _ _)
      · rcases ih h with h' | h'
        · exact Or.inl h'
        · exact Or.inr (List.mem_cons_of_mem _ h')

/-- Well-formedness of the manager state as the source maintains it: the
rotation list is the sorted list of active addresses, validators are
keyed by their own address, keys are unique, and the cursor lies in the
interval from -1 up to (excluding) the rotation-list length. -/
def VMwf (m : ValidatorManager) : Prop :=
  m.active_rr =
    ((m.validators.filter (fun kv => kv.2.is_active)).map Prod.fst).insertionSort
      (fun a b => strLeB a b = true) ∧
  (m.validators.map Prod.fst).Nodup ∧
  (∀ kv ∈ m.validators, kv.2.wallet_address = kv.1) ∧
  -1 ≤ m.last_idx ∧ m.last_idx < (m.active_rr.length : Int)

instance VMwf.dec (m : ValidatorManager) : Decidable (VMwf m) := by
  unfold VMwf
  infer_instance

theorem charListLe_total : ∀ a b, charListLe a b = true ∨ charListLe b a = true
  | [], _ => Or.inl rfl
  | _ :: _, [] => Or.inr rfl
  | a1 :: as, b1 :: bs => by
    simp only [charListLe]
    by_cases hab : a1 < b1
    · left
      simp [hab]
    · by_cases hba : b1 < a1
      · right
        simp [hba]
      · rcases charListLe_total as bs with h | h
        · left
          simp [hab, hba, h]
        · right
          simp [hab, hba, h]

theorem charListLe_trans : ∀ a b c, charListLe a b = true → charListLe b c = true →
    charListLe a c = true
  | [], _, _, _, _ => rfl
  | _ :: _, [], _, h1, _ => by simp [charListLe] at h1
  | _ :: _, _ :: _, [], _, h2 => by simp [charListLe] at h2
  | a1 :: as, b1 :: bs, c1 :: cs, h1, h2 => by
    simp only [charListLe] at h1 h2 ⊢
    by_cases hab : a1 < b1
    · by_cases hbc : b1 < c1
      · simp [lt_trans hab hbc]
      · by_cases hcb : c1 < b1
        · simp [hbc, hcb] at h2
        · have he : b1 = c1 := le_antisymm (not_lt.mp hcb) (not_lt.mp hbc)
          subst he
          simp [hab]
    · by_cases hba : b1 < a1
      · simp [hab, hba] at h1
      · have he : a1 = b1 := le_antisymm (not_lt.mp hba) (not_lt.mp hab)
        subst he
        simp only [lt_irrefl, if_neg, ite_false, not_false_iff, if_false] at h1
        by_cases hac : a1 < c1
        · simp [hac]
        · by_cases hca : c1 < a1
          · simp [hac, hca] at h2
          · have h1' : charListLe as bs = true := by simpa using h1
            have h2' : charListLe bs cs = true := by simpa [hac, hca] using h2
            simp [hac, hca, charListLe_trans as bs cs h1' h2']

theorem charListLe_antisymm : ∀ a b, charListLe a b = true → charListLe b a = true → a = b
  | [], [], _, _ => rfl
  | [], _ :: _, _, h2 => by simp [charListLe] at h2
  | _ :: _, [], h1, _ => by simp [charListLe] at h1
  | a1 :: as, b1 :: bs, h1, h2 => by
    simp only [charListLe] at h1 h2
    by_cases hab : a1 < b1
    · simp [asymm hab, hab] at h2
    · by_cases hba : b1 < a1
      · simp [hba, hab] at h1
      · have he : a1 = b1 := le_antisymm (not_lt.mp hba) (not_lt.mp hab)
        subst he
        simp only [lt_irrefl, ite_false, if_neg, not_false_iff, if_false] at h1 h2
        have h1' : charListLe as bs = true := by simpa using h1
        have h2' : charListLe bs as = true := by simpa using h2
        rw [charListLe_antisymm as bs h1' h2']

instance strLeB_total_inst : IsTotal String (fun a b => strLeB a b = true) :=
  ⟨fun a b => charListLe_total a.data b.data⟩

instance strLeB_trans_inst : IsTrans String (fun a b => strLeB a b = true) :=
  ⟨fun a b c h1 h2 => charListLe_trans a.data b.data c.data h1 h2⟩

instance strLeB_antisymm_inst : IsAntisymm String (fun a b => strLeB a b = true) :=
  ⟨fun a b h1 h2 => String.ext (charListLe_antisymm a.data b.data h1 h2)⟩

theorem active_rr_mem (m : ValidatorManager) (h : VMwf m) {a : String} (ha : a ∈ m.active_rr) :
    ∃ v, lookupStr m.validators a = some v ∧ v.is_active = true ∧ v.wallet_address = a := by
  obtain ⟨hact, hnd, haddr, _⟩ := h
  rw [hact] at ha
  have ha' : a ∈ (m.validators.filter (fun kv => kv.2.is_active)).map Prod.fst :=
    ((List.perm_insertionSort _ _).mem_iff).mp ha
  obtain ⟨kv, hkv, hfst⟩ := List.mem_map.mp ha'
  have hmem := List.mem_of_mem_filter hkv
  have hactv : kv.2.is_active = true := by simpa using List.of_mem_filter hkv
  subst hfst
  exact ⟨kv.2, lookupStr_eq_of_mem hnd (by simpa using hmem), hactv, haddr kv hmem⟩

theorem active_rr_sorted (m : ValidatorManager) (h : VMwf m) :
    m.active_rr.Sorted (fun a b : String => strLeB a b = true) := by
  rw [h.1]
  exact List.sorted_insertionSort _ _

theorem active_rr_nodup (m : ValidatorManager) (h : VMwf m) : m.active_rr.Nodup := by
  rw [h.1]
  refine ((List.perm_insertionSort _ _).nodup_iff).mpr ?_
  exact ((List.filter_sublist _).map Prod.fst).nodup h.2.1

theorem select_rr_spec (m : ValidatorManager) (now : ℚ) (h : VMwf m)
    (hne : m.active_rr ≠ []) :
    ∃ v vm', m.select_next_validator_round_robin now = (some v, vm') ∧
      v.wallet_address =
        m.active_rr.getD ((m.last_idx + 1) % (m.active_rr.length : Int)).toNat "" ∧
      vm'.active_rr = m.active_rr ∧ vm'.min_stake_active = m.min_stake_active ∧
      vm'.last_idx = (m.last_idx + 1) % (m.active_rr.length : Int) ∧ VMwf vm' := by
  have hlen : 0 < m.active_rr.length := List.length_pos.mpr hne
  have hNpos : 0 < (m.active_rr.length : Int) := by exact_mod_cast hlen
  have hidx0 : 0 ≤ (m.last_idx + 1) % (m.active_rr.length : Int) :=
    Int.emod_nonneg _ (ne_of_gt hNpos)
  have hidxN : (m.last_idx + 1) % (m.active_rr.length : Int) < (m.active_rr.length : Int) :=
    Int.emod_lt_of_pos _ hNpos
  have hidxlt : ((m.last_idx + 1) % (m.active_rr.length : Int)).toNat < m.active_rr.length := by
    omega
  have hmemsel :
      m.active_rr.getD ((m.last_idx + 1) % (m.active_rr.length : Int)).toNat "" ∈
        m.active_rr := by
    rw [List.getD_eq_getElem _ _ hidxlt]
    exact List.getElem_mem _
  obtain ⟨v, hlk, hactv, haddrv⟩ := active_rr_mem m h hmemsel
  refine ⟨{ v with last_block_produced_timestamp := now },
    { validators := setStr m.validators
        (m.active_rr.getD ((m.last_idx + 1) % (m.active_rr.length : Int)).toNat "")
        { v with last_block_produced_timestamp := now },
      min_stake_active := m.min_stake_active, active_rr := m.active_rr,
      last_idx := (m.last_idx + 1) % (m.active_rr.length : Int) },
    ?_, by simpa using haddrv, rfl, rfl, rfl, ?_⟩
  · unfold ValidatorManager.select_next_validator_round_robin
    rw [if_neg (by omega)]
    dsimp only
    rw [hlk]
  · obtain ⟨hact, hnd, haddr, _, _⟩ := h
    refine ⟨?_, ?_, ?_, by dsimp only; omega, by dsimp only; omega⟩
    · dsimp only
      rw [@filter_map_fst_setStr_same_active m.validators
        (m.active_rr.getD ((m.last_idx + 1) % (m.active_rr.length : Int)).toNat "") v
        { v with last_block_produced_timestamp := now } hlk hnd rfl]
      exact hact
    · dsimp only
      rw [setStr_map_fst hlk]
      exact hnd
    · intro kv hkv
      dsimp only at hkv
      rcases mem_setStr hkv with h' | h'
      · rw [h']
        simpa using haddrv
      · exact haddr kv h'

theorem lookupStr_setStr_self {α : Type} (l : List (String × α)) (k : String) (v : α) :
    lookupStr (setStr l k v) k = some v := by
  induction l with
  | nil => simp [setStr, lookupStr]
  | cons kv rest ih =>
    by_cases hk : kv.1 = k
    · simp [setStr, lookupStr, hk]
    · simp [setStr, lookupStr, hk, ih]

/-- Addresses returned by k consecutive calls of
select_next_validator_round_robin, threading the mutated manager. -/
def select_addrs (now : ℚ) : ValidatorManager → Nat → List String
  | _, 0 => []
  | m, Nat.succ k =>
    (match (m.select_next_validator_round_robin now).1 with
      | some x => x.wallet_address
      | none => "") :: select_addrs now (m.select_next_validator_round_robin now).2 k

theorem select_addrs_length (now : ℚ) (m : ValidatorManager) (k : Nat) :
    (select_addrs now m k).length = k := by
  induction k generalizing m with
  | zero => rfl
  | succ k ih => simp [select_addrs, ih]

theorem select_addrs_spec (now : ℚ) (k : Nat) :
    ∀ (m : ValidatorManager), VMwf m → m.active_rr ≠ [] → ∀ i, i < k →
      (select_addrs now m k).getD i "" =
        m.active_rr.getD
          ((m.last_idx + 1 + (i : Int)) % (m.active_rr.length : Int)).toNat "" := by
  induction k with
  | zero =>
    intro m _ _ i hi
    omega
  | succ k ih =>
    intro m h hne i hi
    obtain ⟨v, vm', hsel, haddr, hrr, _, hidx, hwf⟩ := select_rr_spec m now h hne
    have hstep : select_addrs now m (k + 1) = v.wallet_address :: select_addrs now vm' k := by
      simp only [select_addrs, hsel]
    cases i with
    | zero =>
      rw [hstep]
      simpa using haddr
    | succ j =>
      have hne' : vm'.active_rr ≠ [] := hrr ▸ hne
      have htail := ih vm' hwf hne' j (by omega)
      rw [hstep]
      have : (v.wallet_address :: select_addrs now vm' k).getD (j + 1) "" =
          (select_addrs now vm' k).getD j "" := by
        simp [List.getD]
      rw [this, htail, hrr, hidx]
      congr 2
      rw [show (m.last_idx + 1) % (m.active_rr.length : Int) + 1 + (j : Int) =
        (m.last_idx + 1) % (m.active_rr.length : Int) + (1 + (j : Int)) by ring]
      rw [Int.emod_add_emod]
      congr 1
      push_cast
      ring

/-- Sorting commutes with erasing an element, for the address order. -/
theorem insertionSort_erase (F : List String) (a : String) :
    List.insertionSort (fun x y : String => strLeB x y = true) (F.erase a) =
      (List.insertionSort (fun x y : String => strLeB x y = true) F).erase a := by
  have hperm : List.Perm
      (List.insertionSort (fun x y : String => strLeB x y = true) (F.erase a))
      ((List.insertionSort (fun x y : String => strLeB x y = true) F).erase a) :=
    (List.perm_insertionSort _ _).trans
      (((List.perm_insertionSort (fun x y : String => strLeB x y = true) F).symm).erase a)
  have hs1 : List.Sorted (fun x y : String => strLeB x y = true)
      (List.insertionSort (fun x y : String => strLeB x y = true) (F.erase a)) :=
    List.sorted_insertionSort _ _
  have hs2 : List.Sorted (fun x y : String => strLeB x y = true)
      ((List.insertionSort (fun x y : String => strLeB x y = true) F).erase a) :=
    (List.sorted_insertionSort (fun x y : String => strLeB x y = true) F).sublist
      (List.erase_sublist a _)
  exact List.eq_of_perm_of_sorted hperm hs1 hs2

theorem rebuild_last_idx_bounds (x : ValidatorManager) (hx : -1 ≤ x.last_idx) :
    -1 ≤ (ValidatorManager.rebuild x).last_idx ∧
      (ValidatorManager.rebuild x).last_idx <
        ((ValidatorManager.rebuild x).active_rr.length : Int) := by
  unfold ValidatorManager.rebuild
  dsimp only
  split
  · refine ⟨by omega, ?_⟩
    have := Int.natCast_nonneg
      ((((x.validators.filter (fun kv => kv.2.is_active)).map Prod.fst).insertionSort
        (fun a b => strLeB a b = true)).length)
    omega
  · exact ⟨hx, by omega⟩

theorem deactivate_spec (m : ValidatorManager) (h : VMwf m) (a pk : String) (d now : ℚ)
    (v : Validator) (hv : lookupStr m.validators a = some v) (hactv : v.is_active = true)
    (hlow : v.stake + d < m.min_stake_active) (hnn : 0 ≤ v.stake + d)
    (ha : a ≠ "") (hpk : pk ≠ "") :
    VMwf (m.add_or_update_validator_stake a pk d now).2 ∧
      (m.add_or_update_validator_stake a pk d now).2.active_rr = m.active_rr.erase a ∧
      a ∉ (m.add_or_update_validator_stake a pk d now).2.active_rr := by
  obtain ⟨hact, hnd, haddr, hlb, hub⟩ := h
  have hnotempty : ¬(a = "" ∨ pk = "") := by simp [ha, hpk]
  have hnneg : ¬ (v.stake + d < 0) := not_lt.mpr hnn
  set vNew : Validator := { v with stake := v.stake + d } with hvNew
  set vs1 := setStr m.validators a vNew with hvs1
  set vInact : Validator := { vNew with is_active := false } with hvInact
  set vs2 := setStr vs1 a vInact with hvs2
  set m1 : ValidatorManager := { m with validators := vs1 } with hm1
  set m2 : ValidatorManager := { m with validators := vs2 } with hm2
  have hlk1 : lookupStr vs1 a = some vNew := lookupStr_setStr_self _ _ _
  have hnd1 : (vs1.map Prod.fst).Nodup := by
    rw [hvs1, setStr_map_fst hv]
    exact hnd
  have hF1 : (vs1.filter (fun kv => kv.2.is_active)).map Prod.fst =
      (m.validators.filter (fun kv => kv.2.is_active)).map Prod.fst :=
    @filter_map_fst_setStr_same_active m.validators a v vNew hv hnd rfl
  have hF2 : (vs2.filter (fun kv => kv.2.is_active)).map Prod.fst =
      ((vs1.filter (fun kv => kv.2.is_active)).map Prod.fst).erase a :=
    @filter_map_fst_setStr_deactivate vs1 a vNew vInact hlk1 hnd1 hactv rfl
  have hdec : decide (m.min_stake_active ≤ vNew.stake) = false := by
    rw [hvNew]
    simp [not_le.mpr hlow]
  have hupd : ValidatorManager.update_active_status m1 a = ValidatorManager.rebuild m2 := by
    unfold ValidatorManager.update_active_status
    rw [show lookupStr m1.validators a = some vNew from hlk1]
    dsimp only
    rw [hdec]
    rw [if_neg (by simp [hvNew, hactv])]
  have hres : (m.add_or_update_validator_stake a pk d now).2 =
      ValidatorManager.rebuild (ValidatorManager.rebuild m2) := by
    unfold ValidatorManager.add_or_update_validator_stake
    rw [if_neg hnotempty, hv]
    dsimp only
    rw [if_neg hnneg, hupd]
  rw [hres]
  have hA : (ValidatorManager.rebuild (ValidatorManager.rebuild m2)).active_rr =
      m.active_rr.erase a := by
    show ((vs2.filter (fun kv => kv.2.is_active)).map Prod.fst).insertionSort
        (fun x y => strLeB x y = true) = m.active_rr.erase a
    rw [hF2, hF1, insertionSort_erase, ← hact]
  have hnotmem : a ∉ m.active_rr.erase a := by
    intro hmem
    have hnodup : m.active_rr.Nodup := active_rr_nodup m ⟨hact, hnd, haddr, hlb, hub⟩
    exact ((List.Nodup.mem_erase_iff hnodup).mp hmem).1 rfl
  refine ⟨?_, hA, by rw [hA]; exact hnotmem⟩
  refine ⟨rfl, ?_, ?_, ?_, ?_⟩
  · show (vs2.map Prod.fst).Nodup
    rw [hvs2, setStr_map_fst hlk1]
    exact hnd1
  · intro kv hkv
    have haeq : v.wallet_address = a := haddr (a, v) (lookupStr_mem hv)
    have hkv2 : kv ∈ vs2 := hkv
    rw [hvs2] at hkv2
    rcases mem_setStr hkv2 with h' | h'
    · rw [h', hvInact, hvNew]
      simpa using haeq
    · rw [hvs1] at h'
      rcases mem_setStr h' with h'' | h''
      · rw [h'', hvNew]
        simpa using haeq
      · exact haddr kv h''
  · have hin := rebuild_last_idx_bounds m2 (by rw [hm2]; exact hlb)
    exact (rebuild_last_idx_bounds _ hin.1).1
  · have hin := rebuild_last_idx_bounds m2 (by rw [hm2]; exact hlb)
    exact (rebuild_last_idx_bounds _ hin.1).2

/-- C8: round-robin selection. With the rotation state well-formed (as
the manager maintains it): selection returns None when the active list
is empty; the rotation list is the lexicographically sorted,
duplicate-free list of exactly the active validators' addresses; the
i-th of any run of consecutive selections is the rotation-list entry at
cursor plus one plus i modulo N, so N consecutive calls return each
active validator exactly once and keep cycling in that order, and from
the initial cursor the first N calls return the rotation list in exactly
lexicographic order; deactivating a validator mid-cycle erases exactly
its address from the rotation list and preserves well-formedness, so all
future cycles rotate over the remaining validators in the same order
without it. -/
theorem round_robin_rotation :
    (∀ (m : ValidatorManager) (now : ℚ), m.active_rr = [] →
      (m.select_next_validator now).1 = none) ∧
    (∀ (m : ValidatorManager), VMwf m →
      m.active_rr.Sorted (fun a b : String => strLeB a b = true) ∧ m.active_rr.Nodup ∧
      (∀ a : String, a ∈ m.active_rr ↔
        ∃ v, m.get_validator a = some v ∧ v.is_active = true ∧ v.wallet_address = a)) ∧
    (∀ (now : ℚ) (m : ValidatorManager), VMwf m → m.active_rr ≠ [] → ∀ k i, i < k →
      (select_addrs now m k).getD i "" =
        m.active_rr.getD
          ((m.last_idx + 1 + (i : Int)) % (m.active_rr.length : Int)).toNat "") ∧
    (∀ (now : ℚ) (m : ValidatorManager), VMwf m → m.active_rr ≠ [] → m.last_idx = -1 →
      select_addrs now m m.active_rr.length = m.active_rr) ∧
    (∀ (m : ValidatorManager) (a pk : String) (d now : ℚ) (v : Validator), VMwf m →
      lookupStr m.validators a = some v → v.is_active = true →
      v.stake + d < m.min_stake_active → 0 ≤ v.stake + d → a ≠ "" → pk ≠ "" →
      VMwf (m.add_or_update_validator_stake a pk d now).2 ∧
        (m.add_or_update_validator_stake a pk d now).2.active_rr = m.active_rr.erase a ∧
        a ∉ (m.add_or_update_validator_stake a pk d now).2.active_rr) := by
  refine ⟨?_, ?_, ?_, ?_, ?_⟩
  · intro m now hempty
    unfold ValidatorManager.select_next_validator
      ValidatorManager.select_next_validator_round_robin
    rw [if_pos (by rw [hempty]; rfl)]
  · intro m h
    refine ⟨active_rr_sorted m h, active_rr_nodup m h, ?_⟩
    intro a
    constructor
    · exact fun ha => active_rr_mem m h ha
    · rintro ⟨v, hlk, hactv, haddrv⟩
      rw [h.1]
      refine ((List.perm_insertionSort _ _).mem_iff).mpr ?_
      refine List.mem_map.mpr ⟨(a, v), ?_, rfl⟩
      refine List.mem_filter.mpr ⟨lookupStr_mem hlk, by simpa using hactv⟩
  · intro now m h hne k i hik
    exact select_addrs_spec now k m h hne i hik
  · intro now m h hne hinit
    have hlen : 0 < m.active_rr.length := List.length_pos.mpr hne
    apply List.ext_getElem (by rw [select_addrs_length])
    intro i h1 h2
    have hilt : i < m.active_rr.length := h2
    have hspec := select_addrs_spec now m.active_rr.length m h hne i
      (by rwa [select_addrs_length] at h1)
    rw [hinit] at hspec
    have hmod : (-1 + 1 + (i : Int)) % (m.active_rr.length : Int) = (i : Int) := by
      rw [show (-1 : Int) + 1 + (i : Int) = (i : Int) by ring]
      exact Int.emod_eq_of_lt (by omega) (by exact_mod_cast hilt)
    rw [hmod] at hspec
    rw [List.getD_eq_getElem _ _ (by rwa [select_addrs_length]),
      List.getD_eq_getElem _ _ (by simpa using hilt)] at hspec
    simpa using hspec
  · intro m a pk d now v h hv hactv hlow hnn ha hpk
    exact deactivate_spec m h a pk d now v hv hactv hlow hnn ha hpk

/-- Replay validation of a received chain from its genesis allocation,
exactly as performed inside handle_chain_response: the genesis
validator's key must be registered and its signature verify, then the
remaining blocks pass the link/index/hash/signature walk while their
transactions verify and replay from the genesis allocation. -/
def chain_replay_validation (keys : List (String × String)) (pc : List Block) (supply : ℚ) :
    Option Balances :=
  match pc with
  | [] => none
  | g :: rest =>
    match lookupStr keys g.validator_address with
    | none => none
    | some gpk =>
      if ¬ g.verify_block_signature gpk then none
      else validate_prospective keys rest 1 g (bset [] g.validator_address supply)

/-- Case characterisation of handle_chain_response on a non-empty,
strictly longer response whose genesis passes the genesis-hash guard:
the outcome is governed by chain_replay_validation. -/
theorem hcr_main (n : Node) (rc : List BlockRecord) (fw : Wallet) (g : Block)
    (rest : List Block) (hempty : rc ≠ []) (hlen : ¬ rc.length ≤ n.chain.length)
    (hg : rc.map Block.from_dict = g :: rest)
    (hnomis : ¬(n.chain.length > 1 ∧
      g.hash ≠ ((n.chain.head?.map (fun b => b.hash)).getD ""))) :
    handle_chain_response n rc fw =
      (match chain_replay_validation (setStr n.user_public_keys fw.address fw.key)
          (g :: rest) n.total_supply_epc with
        | none =>
          { n with user_public_keys := setStr n.user_public_keys fw.address fw.key,
                   validator_wallets := setStr n.validator_wallets fw.address fw }
        | some bal =>
          { n with user_public_keys := setStr n.user_public_keys fw.address fw.key,
                   validator_wallets := setStr n.validator_wallets fw.address fw,
                   chain := g :: rest, balances := bal, pending_transactions := [],
                   seen_block_hashes_broadcast := (g :: rest).map (fun b => b.hash),
                   seen_tx_ids_broadcast :=
                     ((g :: rest).map (fun b =>
                       b.transactions.map (fun tx => tx.transaction_id))).flatten }) := by
  unfold handle_chain_response chain_replay_validation
  rw [if_neg hempty, if_neg hlen]
  dsimp only
  rw [hg]
  dsimp only
  rw [if_neg hnomis]
  cases hk : lookupStr (setStr n.user_public_keys fw.address fw.key) g.validator_address with
  | none => rfl
  | some gpk =>
    by_cases hv : g.verify_block_signature gpk
    · simp only [hv, not_true, ite_false, if_neg, not_false_iff, ite_true]
    · have hv' : g.verify_block_signature gpk = false := by
        simpa using hv
      simp only [hv', Bool.false_eq_true, not_false_iff, ite_true, if_pos]

/-- C4: a peer's chain response replaces the local state only when the
received chain is strictly longer, its genesis matches the local genesis
hash whenever the local chain has more than one block, and full replay
validation from the received genesis allocation succeeds. On acceptance
the chain, balance table and mempool are replaced (mempool emptied) and
both broadcast-seen sets are re-seeded to contain exactly the adopted
chain's block hashes and transaction identifiers; on any failed
condition the chain, balances and mempool are unchanged. -/
theorem chain_response_spec (n : Node) (rc : List BlockRecord) (fw : Wallet) :
    ((rc = [] ∨ rc.length ≤ n.chain.length ∨
        (n.chain.length > 1 ∧
          (rc.map Block.from_dict).head?.map (fun b => b.hash) ≠
            n.chain.head?.map (fun b => b.hash)) ∨
        chain_replay_validation (setStr n.user_public_keys fw.address fw.key)
          (rc.map Block.from_dict) n.total_supply_epc = none) →
      (handle_chain_response n rc fw).chain = n.chain ∧
      (handle_chain_response n rc fw).balances = n.balances ∧
      (handle_chain_response n rc fw).pending_transactions = n.pending_transactions) ∧
    (∀ bal : Balances, n.chain.length < rc.length →
      (n.chain.length > 1 →
        (rc.map Block.from_dict).head?.map (fun b => b.hash) =
          n.chain.head?.map (fun b => b.hash)) →
      chain_replay_validation (setStr n.user_public_keys fw.address fw.key)
        (rc.map Block.from_dict) n.total_supply_epc = some bal →
      (handle_chain_response n rc fw).chain = rc.map Block.from_dict ∧
      (handle_chain_response n rc fw).balances = bal ∧
      (handle_chain_response n rc fw).pending_transactions = [] ∧
      (∀ hs : String, hs ∈ (handle_chain_response n rc fw).seen_block_hashes_broadcast ↔
        hs ∈ (rc.map Block.from_dict).map (fun b => b.hash)) ∧
      (∀ tid : String, tid ∈ (handle_chain_response n rc fw).seen_tx_ids_broadcast ↔
        ∃ b ∈ rc.map Block.from_dict, ∃ t ∈ b.transactions, t.transaction_id = tid)) := by
  constructor
  · intro hfail
    by_cases hempty : rc = []
    · unfold handle_chain_response
      rw [if_pos hempty]
      exact ⟨rfl, rfl, rfl⟩
    · by_cases hlen : rc.length ≤ n.chain.length
      · unfold handle_chain_response
        rw [if_neg hempty, if_pos hlen]
        exact ⟨rfl, rfl, rfl⟩
      · rcases hg : rc.map Block.from_dict with _ | ⟨g, rest⟩
        · exact absurd (by simpa using hg) hempty
        · by_cases hmis : n.chain.length > 1 ∧
              g.hash ≠ ((n.chain.head?.map (fun b => b.hash)).getD "")
          · unfold handle_chain_response
            rw [if_neg hempty, if_neg hlen]
            dsimp only
            rw [hg]
            dsimp only
            rw [if_pos hmis]
            exact ⟨rfl, rfl, rfl⟩
          · rcases hfail with h | h | h | h
            · exact absurd h hempty
            · exact absurd h hlen
            · obtain ⟨hgt, hne⟩ := h
              exfalso
              apply hmis
              refine ⟨hgt, ?_⟩
              have hnil : n.chain ≠ [] := by
                intro he
                rw [he] at hgt
                simp at hgt
              obtain ⟨x, hx⟩ : ∃ x, n.chain.head? = some x := by
                cases hc : n.chain.head? with
                | none => exact absurd (List.head?_eq_none_iff.mp hc) hnil
                | some x => exact ⟨x, rfl⟩
              intro heq
              apply hne
              rw [hg, hx]
              rw [hx] at heq
              simpa using heq
            · rw [hg] at h
              rw [hcr_main n rc fw g rest hempty hlen hg hmis, h]
              exact ⟨rfl, rfl, rfl⟩
  · intro bal hlen hgen hval
    have hempty : rc ≠ [] := by
      intro he
      rw [he] at hlen
      simp at hlen
    rcases hg : rc.map Block.from_dict with _ | ⟨g, rest⟩
    · exact absurd (by simpa using hg) hempty
    · have hnomis : ¬(n.chain.length > 1 ∧
          g.hash ≠ ((n.chain.head?.map (fun b => b.hash)).getD "")) := by
        rintro ⟨hgt, hne⟩
        apply hne
        have hmatch := hgen hgt
        have hnil : n.chain ≠ [] := by
          intro he
          rw [he] at hgt
          simp at hgt
        obtain ⟨x, hx⟩ : ∃ x, n.chain.head? = some x := by
          cases hc : n.chain.head? with
          | none => exact absurd (List.head?_eq_none_iff.mp hc) hnil
          | some x => exact ⟨x, rfl⟩
        rw [hg, hx] at hmatch
        rw [hx]
        simpa using hmatch
      rw [hg] at hval
      rw [hcr_main n rc fw g rest hempty (by omega) hg hnomis, hval]
      refine ⟨rfl, rfl, rfl, fun hs => Iff.rfl, ?_⟩
      intro tid
      dsimp only
      simp only [List.mem_flatten, List.mem_map]
      constructor
      · rintro ⟨l, ⟨b, hb, hl⟩, htid⟩
        rw [← hl] at htid
        obtain ⟨t, ht, htid'⟩ := List.mem_map.mp htid
        exact ⟨b, hb, t, ht, htid'⟩
      · rintro ⟨b, hb, t, ht, htid⟩
        exact ⟨b.transactions.map (fun tx => tx.transaction_id), ⟨b, hb, rfl⟩,
          List.mem_map.mpr ⟨t, ht, htid⟩⟩

/-- Witness for the C4 theorem: a two-block peer chain offered to a
genesis-only local node is accepted with the replayed balances and an
emptied mempool, and a same-length response leaves the node unchanged. -/
theorem chain_response_spec_witness :
    ((handle_chain_response
        (register_validator_wallet (createBlockchain ⟨"g", "kg"⟩ 0) ⟨"v", "kv"⟩ 150 0)
        [Block.to_dict ((createBlockchain ⟨"g", "kg"⟩ 0).chain.headD
          (Block.init 0 [] 0 "0" "g" none)),
         Block.to_dict ((Block.init 1 [] 5
          ((createBlockchain ⟨"g", "kg"⟩ 0).chain.headD
            (Block.init 0 [] 0 "0" "g" none)).hash "v" none).sign_block ⟨"v", "kv"⟩)]
        ⟨"f", "kf"⟩).pending_transactions = [] ∧
      (handle_chain_response
        (register_validator_wallet (createBlockchain ⟨"g", "kg"⟩ 0) ⟨"v", "kv"⟩ 150 0)
        [Block.to_dict ((createBlockchain ⟨"g", "kg"⟩ 0).chain.headD
          (Block.init 0 [] 0 "0" "g" none)),
         Block.to_dict ((Block.init 1 [] 5
          ((createBlockchain ⟨"g", "kg"⟩ 0).chain.headD
            (Block.init 0 [] 0 "0" "g" none)).hash "v" none).sign_block ⟨"v", "kv"⟩)]
        ⟨"f", "kf"⟩).balances = bset [] "g" 1000000) ∧
    (handle_chain_response (createBlockchain ⟨"g", "kg"⟩ 0)
      [Block.to_dict ((createBlockchain ⟨"g", "kg"⟩ 0).chain.headD
        (Block.init 0 [] 0 "0" "g" none))] ⟨"f", "kf"⟩).chain =
      (createBlockchain ⟨"g", "kg"⟩ 0).chain := by
  constructor
  · constructor
    · exact ((chain_response_spec _ _ _).2 (bset [] "g" 1000000) (by decide) (by decide)
        (by decide)).2.2.1
    · exact ((chain_response_spec _ _ _).2 (bset [] "g" 1000000) (by decide) (by decide)
        (by decide)).2.1
  · exact ((chain_response_spec _ _ _).1 (by right; left; decide)).1

/-- Witness for C8 at a concrete two-validator registry built through
the manager's own operations. -/
theorem round_robin_rotation_witness :
    ((ValidatorManager.init 100).select_next_validator 0).1 = none ∧
    (select_addrs 7
      (((ValidatorManager.init 100).add_or_update_validator_stake "b" "kb" 150 0).2.add_or_update_validator_stake
        "a" "ka" 150 0).2
      ((((ValidatorManager.init 100).add_or_update_validator_stake "b" "kb"
        150 0).2.add_or_update_validator_stake "a" "ka" 150 0).2.active_rr.length) =
      (((ValidatorManager.init 100).add_or_update_validator_stake "b" "kb"
        150 0).2.add_or_update_validator_stake "a" "ka" 150 0).2.active_rr) ∧
    ((((ValidatorManager.init 100).add_or_update_validator_stake "b" "kb"
        150 0).2.add_or_update_validator_stake "a" "ka" 150
        0).2.add_or_update_validator_stake "a" "ka" (-100) 9).2.active_rr =
      ((((ValidatorManager.init 100).add_or_update_validator_stake "b" "kb"
        150 0).2.add_or_update_validator_stake "a" "ka" 150 0).2.active_rr).erase "a" := by
  refine ⟨?_, ?_, ?_⟩
  · exact round_robin_rotation.1 (ValidatorManager.init 100) 0 (by decide)
  · exact round_robin_rotation.2.2.2.1 7 _ (by decide) (by decide) (by decide)
  · exact (round_robin_rotation.2.2.2.2 _ "a" "ka" (-100) 9
      { wallet_address := "a", public_key_hex := "ka", stake := 150,
        last_block_produced_timestamp := 0, is_active := true, joined_timestamp := 0 }
      (by decide) (by decide) (by decide) (by decide) (by decide) (by decide)
      (by decide)).2.1

/-- The replay seed chain_check computes from the genesis block: the
whole supply at the genesis validator when block 0 carries no
transactions. -/
def seedOf (n : Node) : Balances :=
  match n.chain.head? with
  | none => []
  | some g => if g.transactions = [] then bset [] g.validator_address n.total_supply_epc else []

theorem chain_check_eq (n : Node) :
    chain_check n =
      match check_chain_blocks n.user_public_keys n.validator_manager none n.chain (seedOf n) with
      | .error e => some e
      | .ok replayed =>
        if n.chain.length > 1 then
          if dictEqB (replayed.filter (fun kv => kv.2 != 0))
              (n.balances.filter (fun kv => kv.2 != 0)) then none
          else some .balanceMismatch
        else none := rfl

theorem list_set_self {α : Type} :
    ∀ (l : List α) (i : Nat) (x : α), l[i]? = some x → l.set i x = l := by
  intro l
  induction l with
  | nil => intro i x h; simp at h
  | cons a l ih =>
    intro i x h
    cases i with
    | zero => simp at h; simp [List.set, h]
    | succ i => simp at h; simp [List.set, ih i x h]

theorem toDigitsCore_suffix (b : Nat) :
    ∀ (f n : Nat) (ds : List Char), ∃ pre, Nat.toDigitsCore b f n ds = pre ++ ds := by
  intro f
  induction f with
  | zero => intro n ds; exact ⟨[], rfl⟩
  | succ f ih =>
    intro n ds
    rw [Nat.toDigitsCore]
    by_cases h : n / b = 0
    · rw [if_pos h]
      exact ⟨[(n % b).digitChar], rfl⟩
    · rw [if_neg h]
      obtain ⟨pre, hp⟩ := ih (n / b) ((n % b).digitChar :: ds)
      exact ⟨pre ++ [(n % b).digitChar], by rw [hp, List.append_assoc]; rfl⟩

theorem nat_repr_ne_empty (n : Nat) : Nat.repr n ≠ "" := by
  show (Nat.toDigits 10 n).asString ≠ ""
  rw [Nat.toDigits, Nat.toDigitsCore]
  intro hcon
  by_cases h : n / 10 = 0
  · rw [if_pos h] at hcon
    exact absurd (congrArg String.data hcon) (by simp [List.asString])
  · rw [if_neg h] at hcon
    obtain ⟨pre, hp⟩ := toDigitsCore_suffix 10 n (n / 10) [(n % 10).digitChar]
    rw [hp] at hcon
    have := congrArg String.data hcon
    simp [List.asString] at this

theorem append_ne_empty_left {s t : String} (h : s ≠ "") : s ++ t ≠ "" := by
  intro hcon
  apply h
  have hd := congrArg String.data hcon
  rw [String.data_append] at hd
  obtain ⟨h1, _⟩ := List.append_eq_nil.mp hd
  exact String.ext h1

/-- Lookup after a dict assignment: the assigned key reads the new value
and every other key is unaffected. -/
theorem lookupStr_setStr {α : Type} :
    ∀ (l : List (String × α)) (k : String) (v : α) (x : String),
      lookupStr (setStr l k v) x = if k = x then some v else lookupStr l x := by
  intro l
  induction l with
  | nil =>
    intro k v x
    by_cases h : k = x
    · subst h; simp [setStr, lookupStr]
    · simp [setStr, lookupStr, h, fun hx : x = k => h hx.symm]
  | cons kv rest ih =>
    intro k v x
    by_cases h1 : kv.1 = k
    · subst h1
      simp only [setStr, if_pos rfl]
      by_cases h2 : kv.1 = x
      · subst h2; simp [lookupStr]
      · simp [lookupStr, h2]
    · simp only [setStr, if_neg h1]
      by_cases h2 : kv.1 = x
      · subst h2
        have hkx : ¬ k = kv.1 := fun hc => h1 hc.symm
        simp [lookupStr, if_neg hkx]
      · simp [lookupStr, h2, ih k v x]

theorem dictEqB_refl (a : Balances) : dictEqB a a = true := by
  unfold dictEqB
  rw [List.all_eq_true]
  intro k _
  exact beq_self_eq_true (lookupStr a k)

/-- Characterisation of a verifying transaction signature: the stored
signature is exactly the supplied key paired with the digest of the
re-serialised fields. -/
theorem tx_verify_iff (t : Transaction) (pk : String) :
    t.verify_signature pk = true ↔
      t.signature_hex = some ⟨pk, sha256 t.get_data_for_signing⟩ := by
  unfold Transaction.verify_signature Wallet.verify
  cases h : t.signature_hex with
  | none => simp
  | some sig =>
    cases sig with
    | mk k d =>
      simp only [Option.some.injEq, Sig.mk.injEq, Bool.and_eq_true, beq_iff_eq]

/-- Characterisation of a verifying block signature against the stored
hash. -/
theorem block_verify_iff (b : Block) (pk : String) :
    b.verify_block_signature pk = true ↔
      b.hash ≠ "" ∧ b.signature_hex = some ⟨pk, sha256 b.hash⟩ := by
  unfold Block.verify_block_signature Wallet.verify Block.get_data_for_block_signing
  cases h : b.signature_hex with
  | none => simp
  | some sig =>
    cases sig with
    | mk k d =>
      by_cases hh : b.hash = ""
      · simp [hh]
      · simp only [if_neg hh, Option.some.injEq, Sig.mk.injEq, Bool.and_eq_true, beq_iff_eq]
        constructor
        · rintro ⟨hk, hd⟩; exact ⟨hh, hk, hd⟩
        · rintro ⟨_, hk, hd⟩; exact ⟨hk, hd⟩

/-- A passing header check pins the stored hash to the recomputed one. -/
theorem header_none_hash (keys : List (String × String)) (vm : ValidatorManager)
    (prev : Option Block) (b : Block) (h : check_block_header keys vm prev b = none) :
    b.hash = b.calculate_block_hash := by
  unfold check_block_header at h
  by_cases h1 : b.hash ≠ b.calculate_block_hash
  · rw [if_pos h1] at h
    exact absurd h (by simp)
  · push_neg at h1
    exact h1

/-- A passing header check of a signed block pins a registered validator
key under which the stored signature verifies. -/
theorem header_none_sig (keys : List (String × String)) (vm : ValidatorManager)
    (prev : Option Block) (b : Block) (s0 : Sig) (h : check_block_header keys vm prev b = none)
    (hs : b.signature_hex = some s0) :
    ∃ vpk, lookupStr keys b.validator_address = some vpk ∧
      b.verify_block_signature vpk = true := by
  unfold check_block_header at h
  by_cases h1 : b.hash ≠ b.calculate_block_hash
  · rw [if_pos h1] at h
    exact absurd h (by simp)
  · rw [if_neg h1] at h
    cases prev with
    | some p =>
      dsimp only at h
      by_cases h2 : b.previous_hash ≠ p.hash
      · rw [if_pos h2] at h
        exact absurd h (by simp)
      · rw [if_neg h2] at h
        cases h3 : lookupStr keys b.validator_address with
        | none => rw [h3] at h; exact absurd h (by simp)
        | some vpk =>
          rw [h3] at h
          dsimp only at h
          by_cases h4 : (vm.get_validator b.validator_address).isNone = true
          · rw [if_pos h4] at h; exact absurd h (by simp)
          · rw [if_neg h4] at h
            by_cases h5 : ¬ b.verify_block_signature vpk = true
            · rw [if_pos h5] at h; exact absurd h (by simp)
            · push_neg at h5
              exact ⟨vpk, rfl, h5⟩
    | none =>
      dsimp only at h
      rw [hs] at h
      dsimp only at h
      cases h3 : lookupStr keys b.validator_address with
      | none => rw [h3] at h; exact absurd h (by simp)
      | some vpk =>
        rw [h3] at h
        dsimp only at h
        by_cases h5 : ¬ b.verify_block_signature vpk = true
        · rw [if_pos h5] at h; exact absurd h (by simp)
        · push_neg at h5
          exact ⟨vpk, rfl, h5⟩

/-- Constructor of a passing header check at a non-genesis position. -/
theorem header_intro_next (keys : List (String × String)) (vm : ValidatorManager)
    (p b : Block) (vpk : String) (h1 : b.hash = b.calculate_block_hash)
    (h2 : b.previous_hash = p.hash) (h3 : lookupStr keys b.validator_address = some vpk)
    (h4 : (vm.get_validator b.validator_address).isSome = true)
    (h5 : b.verify_block_signature vpk = true) :
    check_block_header keys vm (some p) b = none := by
  unfold check_block_header
  rw [if_neg (fun hc => hc h1)]
  dsimp only
  rw [if_neg (fun hc => hc h2), h3]
  dsimp only
  rw [if_neg (by rw [Option.isSome_iff_ne_none] at h4; simpa using h4)]
  rw [if_neg (fun hc => hc h5)]

/-- Constructor of a passing header check at the genesis position for a
signed block. -/
theorem header_intro_first (keys : List (String × String)) (vm : ValidatorManager)
    (b : Block) (s0 : Sig) (vpk : String) (h1 : b.hash = b.calculate_block_hash)
    (hs : b.signature_hex = some s0) (h3 : lookupStr keys b.validator_address = some vpk)
    (h5 : b.verify_block_signature vpk = true) :
    check_block_header keys vm none b = none := by
  unfold check_block_header
  rw [if_neg (fun hc => hc h1)]
  dsimp only
  rw [hs]
  dsimp only
  rw [h3]
  dsimp only
  rw [if_neg (fun hc => hc h5)]

/-- One cons step of the chain walk, as a plain equation. -/
theorem check_chain_cons (keys : List (String × String)) (vm : ValidatorManager)
    (prev : Option Block) (c : Block) (L : List Block) (temp : Balances) :
    check_chain_blocks keys vm prev (c :: L) temp =
      (match check_block_header keys vm prev c with
        | some e => .error e
        | none =>
          match check_block_transactions keys c.transactions temp with
          | .error e => .error e
          | .ok temp2 => check_chain_blocks keys vm (some c) L temp2) := rfl

/-- Splitting the block walk over an appended suffix: the suffix is
walked from the prefix's final table with the prefix's last block (or
the original predecessor) as the link target. -/
theorem check_chain_append (keys : List (String × String)) (vm : ValidatorManager)
    (ys : List Block) :
    ∀ (xs : List Block) (prev : Option Block) (temp : Balances),
      check_chain_blocks keys vm prev (xs ++ ys) temp =
        (match check_chain_blocks keys vm prev xs temp with
          | .error e => .error e
          | .ok t2 => check_chain_blocks keys vm (xs.getLast?.or prev) ys t2) := by
  intro xs
  induction xs with
  | nil => intro prev temp; simp [check_chain_blocks]
  | cons c rest ih =>
    intro prev temp
    have hlast : (c :: rest).getLast?.or prev = rest.getLast?.or (some c) := by
      cases rest with
      | nil => rfl
      | cons d rest2 =>
        rw [List.getLast?_cons_cons]
        cases hx : (d :: rest2).getLast? with
        | none => simp at hx
        | some x => rfl
    rw [List.cons_append, check_chain_cons keys vm prev c (rest ++ ys) temp,
      check_chain_cons keys vm prev c rest temp]
    cases hh : check_block_header keys vm prev c with
    | some e => rfl
    | none =>
      dsimp only
      cases ht : check_block_transactions keys c.transactions temp with
      | error e => rfl
      | ok temp2 =>
        dsimp only
        rw [ih (some c) temp2, hlast]

/-- Key-registry monotonicity of the transaction walk: any update
preserving every successful key lookup preserves a successful walk and
its result. -/
theorem check_btx_mono (keys keys2 : List (String × String))
    (hm : ∀ x v, lookupStr keys x = some v → lookupStr keys2 x = some v) :
    ∀ (txs : List Transaction) (temp out : Balances),
      check_block_transactions keys txs temp = .ok out →
      check_block_transactions keys2 txs temp = .ok out := by
  intro txs
  induction txs with
  | nil => intro temp out h; exact h
  | cons tx rest ih =>
    intro temp out h
    unfold check_block_transactions at h ⊢
    cases hk : lookupStr keys tx.sender_address with
    | none => rw [hk] at h; exact absurd h (by simp)
    | some pk =>
      rw [hk] at h
      rw [hm tx.sender_address pk hk]
      dsimp only at h ⊢
      by_cases hv : ¬ tx.verify_signature pk = true
      · rw [if_pos hv] at h; exact absurd h (by simp)
      · rw [if_neg hv] at h ⊢
        by_cases ha : tx.asset_id = NATIVE_CURRENCY_SYMBOL
        · rw [if_pos ha] at h ⊢
          by_cases hb : bget temp tx.sender_address < tx.amount
          · rw [if_pos hb] at h; exact absurd h (by simp)
          · rw [if_neg hb] at h ⊢
            exact ih _ _ h
        · rw [if_neg ha] at h ⊢
          exact ih _ _ h

/-- The corresponding monotonicity of the per-block header check. -/
theorem check_header_mono (keys keys2 : List (String × String)) (vm vm2 : ValidatorManager)
    (hm : ∀ x v, lookupStr keys x = some v → lookupStr keys2 x = some v)
    (hv : ∀ x, (vm.get_validator x).isSome = true → (vm2.get_validator x).isSome = true)
    (prev : Option Block) (b : Block) (h : check_block_header keys vm prev b = none) :
    check_block_header keys2 vm2 prev b = none := by
  have h1 := header_none_hash keys vm prev b h
  unfold check_block_header at h ⊢
  rw [if_neg (fun hc => hc h1)] at h ⊢
  cases prev with
  | some p =>
    dsimp only at h ⊢
    by_cases h2 : b.previous_hash ≠ p.hash
    · rw [if_pos h2] at h; exact absurd h (by simp)
    · rw [if_neg h2] at h ⊢
      cases h3 : lookupStr keys b.validator_address with
      | none => rw [h3] at h; exact absurd h (by simp)
      | some vpk =>
        rw [h3] at h
        rw [hm _ _ h3]
        dsimp only at h ⊢
        by_cases h4 : (vm.get_validator b.validator_address).isNone = true
        · rw [if_pos h4] at h; exact absurd h (by simp)
        · rw [if_neg h4] at h
          have h4s : (vm.get_validator b.validator_address).isSome = true := by
            cases hn : vm.get_validator b.validator_address with
            | none => rw [hn] at h4; simp at h4
            | some v => simp
          have h4s2 := hv _ h4s
          rw [if_neg (by rw [Option.isSome_iff_ne_none] at h4s2; simpa using h4s2)]
          by_cases h5 : ¬ b.verify_block_signature vpk = true
          · rw [if_pos h5] at h; exact absurd h (by simp)
          · rw [if_neg h5]
  | none =>
    dsimp only at h ⊢
    cases hs : b.signature_hex with
    | none => rfl
    | some sig =>
      rw [hs] at h
      dsimp only at h ⊢
      cases h3 : lookupStr keys b.validator_address with
      | none => rw [h3] at h; exact absurd h (by simp)
      | some vpk =>
        rw [h3] at h
        rw [hm _ _ h3]
        dsimp only at h ⊢
        by_cases h5 : ¬ b.verify_block_signature vpk = true
        · rw [if_pos h5] at h; exact absurd h (by simp)
        · rw [if_neg h5]

/-- Monotonicity of the whole chain walk. -/
theorem check_chain_mono (keys keys2 : List (String × String)) (vm vm2 : ValidatorManager)
    (hm : ∀ x v, lookupStr keys x = some v → lookupStr keys2 x = some v)
    (hv : ∀ x, (vm.get_validator x).isSome = true → (vm2.get_validator x).isSome = true) :
    ∀ (chain : List Block) (prev : Option Block) (temp out : Balances),
      check_chain_blocks keys vm prev chain temp = .ok out →
      check_chain_blocks keys2 vm2 prev chain temp = .ok out := by
  intro chain
  induction chain with
  | nil => intro prev temp out h; exact h
  | cons b rest ih =>
    intro prev temp out h
    rw [check_chain_cons] at h ⊢
    cases hh : check_block_header keys vm prev b with
    | some e => rw [hh] at h; exact absurd h (by simp)
    | none =>
      rw [hh] at h
      rw [check_header_mono keys keys2 vm vm2 hm hv prev b hh]
      dsimp only at h ⊢
      cases ht : check_block_transactions keys b.transactions temp with
      | error e => rw [ht] at h; exact absurd h (by simp)
      | ok temp2 =>
        rw [ht] at h
        rw [check_btx_mono keys keys2 hm b.transactions temp temp2 ht]
        exact ih _ _ _ h

theorem sign_block_hash (b : Block) (w : Wallet) : (b.sign_block w).hash = b.hash := by
  unfold Block.sign_block
  by_cases h : w.address = b.validator_address
  · rw [if_pos h]
  · rw [if_neg h]

theorem sign_block_calc (b : Block) (w : Wallet) :
    (b.sign_block w).calculate_block_hash = b.calculate_block_hash := by
  unfold Block.sign_block
  by_cases h : w.address = b.validator_address
  · rw [if_pos h]
    rfl
  · rw [if_neg h]

theorem sign_block_transactions (b : Block) (w : Wallet) :
    (b.sign_block w).transactions = b.transactions := by
  unfold Block.sign_block
  by_cases h : w.address = b.validator_address
  · rw [if_pos h]
  · rw [if_neg h]

theorem sign_block_previous (b : Block) (w : Wallet) :
    (b.sign_block w).previous_hash = b.previous_hash := by
  unfold Block.sign_block
  by_cases h : w.address = b.validator_address
  · rw [if_pos h]
  · rw [if_neg h]

theorem sign_block_validator (b : Block) (w : Wallet) :
    (b.sign_block w).validator_address = b.validator_address := by
  unfold Block.sign_block
  by_cases h : w.address = b.validator_address
  · rw [if_pos h]
  · rw [if_neg h]

/-- Signing with the matching wallet stores the symbolic signature over
the stored hash. -/
theorem sign_block_matching (b : Block) (w : Wallet) (h : w.address = b.validator_address) :
    b.sign_block w = { b with signature_hex := some ⟨w.key, sha256 b.hash⟩ } := by
  unfold Block.sign_block
  rw [if_pos h]
  rfl

/-- The stored hash of a freshly constructed block is its recomputed
header hash. -/
theorem block_init_hash (i : Nat) (txs : List Transaction) (ts : ℚ) (ph va : String)
    (sg : Option Sig) :
    (Block.init i txs ts ph va sg).hash = (Block.init i txs ts ph va sg).calculate_block_hash :=
  rfl

theorem calc_shape (b : Block) :
    b.calculate_block_hash =
      toString b.index ++ fmtFixed6 b.timestamp ++ b.previous_hash ++ b.validator_address ++
        b.transaction_fingerprint := rfl

/-- A recomputed header hash is never the empty string: it starts with
the decimal rendering of the index. -/
theorem calc_ne_empty (b : Block) : b.calculate_block_hash ≠ "" := by
  rw [calc_shape]
  have h0 : toString b.index ≠ "" := nat_repr_ne_empty b.index
  exact append_ne_empty_left (append_ne_empty_left (append_ne_empty_left
    (append_ne_empty_left h0)))

theorem head_append_single (l : List Block) (b : Block) (h : l ≠ []) :
    (l ++ [b]).head? = l.head? := by
  cases l with
  | nil => exact absurd rfl h
  | cons x xs => rfl

/-- Every transaction the mining simulation keeps comes from the pending
list it walked. -/
theorem simulate_subset :
    ∀ (txs : List Transaction) (temp : Balances) (tx : Transaction),
      tx ∈ (simulate_pending txs temp).2 → tx ∈ txs := by
  intro txs
  induction txs with
  | nil => intro temp tx h; simp [simulate_pending] at h
  | cons t rest ih =>
    intro temp tx h
    unfold simulate_pending at h
    by_cases ha : t.asset_id = NATIVE_CURRENCY_SYMBOL
    · rw [if_pos ha] at h
      by_cases hb : t.amount ≤ bget temp t.sender_address
      · rw [if_pos hb] at h
        dsimp only at h
        cases hs : simulate_pending rest (bset (bset temp t.sender_address
            (bget temp t.sender_address - t.amount)) t.receiver_address
            (bget (bset temp t.sender_address (bget temp t.sender_address - t.amount))
              t.receiver_address + t.amount)) with
        | mk tf kept =>
          rw [hs] at h
          dsimp only at h
          rcases List.mem_cons.mp h with heq | hmem
          · exact heq ▸ List.mem_cons_self t rest
          · exact List.mem_cons_of_mem t (ih _ tx (by rw [hs]; exact hmem))
      · rw [if_neg hb] at h
        exact List.mem_cons_of_mem t (ih _ tx h)
    · rw [if_neg ha] at h
      dsimp only at h
      cases hs : simulate_pending rest temp with
      | mk tf kept =>
        rw [hs] at h
        dsimp only at h
        rcases List.mem_cons.mp h with heq | hmem
        · exact heq ▸ List.mem_cons_self t rest
        · exact List.mem_cons_of_mem t (ih _ tx (by rw [hs]; exact hmem))

/-- One cons step of the mining application loop. -/
theorem apply_cons (t : Transaction) (rest : List Transaction) (bal : Balances) :
    apply_transactions (t :: rest) bal =
      (match process_transaction_for_state_changes bal t with
        | (true, b1) => apply_transactions rest b1
        | (false, b1) => (false, b1)) := by
  have hstep : apply_transactions (t :: rest) bal =
      (match process_transaction_for_state_changes bal t with
        | (ok, b1) => if ok then apply_transactions rest b1 else (false, b1)) := rfl
  rw [hstep]
  cases hp : process_transaction_for_state_changes bal t with
  | mk ok b1 => cases ok <;> rfl

/-- A successful run of the mining application loop coincides with the
validation walk of is_chain_valid when every transaction verifies
against a registered sender key. -/
theorem check_eq_apply (keys : List (String × String)) :
    ∀ (txs : List Transaction) (temp out : Balances),
      (∀ tx ∈ txs, ∃ pk, lookupStr keys tx.sender_address = some pk ∧
        tx.verify_signature pk = true) →
      apply_transactions txs temp = (true, out) →
      check_block_transactions keys txs temp = .ok out := by
  intro txs
  induction txs with
  | nil =>
    intro temp out _ h
    unfold apply_transactions at h
    cases h
    rfl
  | cons t rest ih =>
    intro temp out hreg h
    obtain ⟨pk, hpk, hver⟩ := hreg t (List.mem_cons_self t rest)
    by_cases ha : t.asset_id = NATIVE_CURRENCY_SYMBOL
    · by_cases hb : bget temp t.sender_address < t.amount
      · have hp : process_transaction_for_state_changes temp t = (false, temp) := by
          unfold process_transaction_for_state_changes
          rw [if_neg (fun hc => hc ha)]
          dsimp only
          rw [if_pos hb]
        rw [apply_cons, hp] at h
        exact absurd h (by simp)
      · have hp : process_transaction_for_state_changes temp t =
            (true, bset (bset temp t.sender_address (bget temp t.sender_address - t.amount))
              t.receiver_address
              (bget (bset temp t.sender_address (bget temp t.sender_address - t.amount))
                t.receiver_address + t.amount)) := by
          unfold process_transaction_for_state_changes
          rw [if_neg (fun hc => hc ha)]
          dsimp only
          rw [if_neg hb]
        rw [apply_cons, hp] at h
        dsimp only at h
        unfold check_block_transactions
        rw [hpk]
        dsimp only
        rw [if_neg (fun hc => hc hver), if_pos ha]
        rw [if_neg hb]
        exact ih _ _ (fun tx htx => hreg tx (List.mem_cons_of_mem t htx)) h
    · have hp : process_transaction_for_state_changes temp t = (true, temp) := by
        unfold process_transaction_for_state_changes
        rw [if_pos ha]
      rw [apply_cons, hp] at h
      dsimp only at h
      unfold check_block_transactions
      rw [hpk]
      dsimp only
      rw [if_neg (fun hc => hc hver), if_neg ha]
      exact ih _ _ (fun tx htx => hreg tx (List.mem_cons_of_mem t htx)) h

/-- Characterisation of a successful round-robin selection: the selected
validator is a timestamp-refresh of a registered one, stored back under
its registry key. -/
theorem select_some_spec (m : ValidatorManager) (now : ℚ) (sv : Validator)
    (vm1 : ValidatorManager) (h : m.select_next_validator now = (some sv, vm1)) :
    ∃ selected v, lookupStr m.validators selected = some v ∧
      sv = { v with last_block_produced_timestamp := now } ∧
      vm1.validators = setStr m.validators selected sv := by
  unfold ValidatorManager.select_next_validator
    ValidatorManager.select_next_validator_round_robin at h
  by_cases hlen : m.active_rr.length = 0
  · rw [if_pos hlen] at h
    exact absurd (congrArg Prod.fst h) (by simp)
  · rw [if_neg hlen] at h
    dsimp only at h
    cases hk : lookupStr m.validators
        (m.active_rr.getD ((m.last_idx + 1) % (m.active_rr.length : Int)).toNat "") with
    | none =>
      rw [hk] at h
      exact absurd (congrArg Prod.fst h) (by simp)
    | some v =>
      rw [hk] at h
      dsimp only at h
      have h1 := congrArg Prod.fst h
      have h2 := congrArg Prod.snd h
      dsimp only at h1 h2
      refine ⟨m.active_rr.getD ((m.last_idx + 1) % (m.active_rr.length : Int)).toNat "", v,
        hk, ?_, ?_⟩
      · exact (Option.some.inj h1).symm
      · have hsv := Option.some.inj h1
        rw [← h2]
        dsimp only
        rw [hsv]

/-- Invariant carried by every honestly built node: an unsigned-payload
genesis block at the head, a validation walk that replays the chain from
the genesis allocation to exactly the live balance table, registry
consistency between validator wallets and the public-key registry, a
mempool whose entries verify against registered sender keys, and a
validator registry keyed by the validators' own addresses. -/
def NodeInv (n : Node) : Prop :=
  (∃ g, n.chain.head? = some g ∧ g.transactions = []) ∧
  check_chain_blocks n.user_public_keys n.validator_manager none n.chain (seedOf n) =
    .ok n.balances ∧
  (∀ a w, lookupStr n.validator_wallets a = some w →
    w.address = a ∧ lookupStr n.user_public_keys a = some w.key) ∧
  (∀ tx ∈ n.pending_transactions, ∃ pk,
    lookupStr n.user_public_keys tx.sender_address = some pk ∧
      tx.verify_signature pk = true) ∧
  (∀ a v, lookupStr n.validator_manager.validators a = some v → v.wallet_address = a)

theorem inv_chain_check (n : Node) (h : NodeInv n) : chain_check n = none := by
  obtain ⟨_, hwalk, _, _, _⟩ := h
  rw [chain_check_eq, hwalk]
  dsimp only
  by_cases hl : n.chain.length > 1
  · rw [if_pos hl, if_pos (dictEqB_refl _)]
  · rw [if_neg hl]

theorem setStr_addr_inv {l : List (String × Validator)}
    (hl : ∀ a v, lookupStr l a = some v → v.wallet_address = a)
    (k : String) (v0 : Validator) (hv0 : v0.wallet_address = k) :
    ∀ a v, lookupStr (setStr l k v0) a = some v → v.wallet_address = a := by
  intro a v hv
  rw [lookupStr_setStr] at hv
  by_cases hk : k = a
  · rw [if_pos hk] at hv
    cases hv
    rw [hv0, hk]
  · rw [if_neg hk] at hv
    exact hl a v hv

theorem setStr_isSome_mono {α : Type} (l : List (String × α)) (k : String) (v : α) :
    ∀ x, (lookupStr l x).isSome = true → (lookupStr (setStr l k v) x).isSome = true := by
  intro x hx
  rw [lookupStr_setStr]
  by_cases hk : k = x
  · rw [if_pos hk]; rfl
  · rw [if_neg hk]; exact hx

theorem rebuild_validators (m : ValidatorManager) : (m.rebuild).validators = m.validators := rfl

/-- _update_validator_active_status preserves registry keying and every
registered entry. -/
theorem uas_inv (m : ValidatorManager) (addr : String)
    (hl : ∀ a v, lookupStr m.validators a = some v → v.wallet_address = a) :
    (∀ a v, lookupStr (m.update_active_status addr).validators a = some v →
      v.wallet_address = a) ∧
    (∀ x, (lookupStr m.validators x).isSome = true →
      (lookupStr (m.update_active_status addr).validators x).isSome = true) := by
  unfold ValidatorManager.update_active_status
  cases hk : lookupStr m.validators addr with
  | none => exact ⟨hl, fun x hx => hx⟩
  | some v =>
    dsimp only
    by_cases hf : v.is_active = decide (v.stake ≥ m.min_stake_active)
    · rw [if_pos hf]
      exact ⟨hl, fun x hx => hx⟩
    · rw [if_neg hf]
      constructor
      · intro a v2 hv2
        rw [rebuild_validators] at hv2
        exact setStr_addr_inv hl addr
          { v with is_active := decide (v.stake ≥ m.min_stake_active) } (hl addr v hk) a v2 hv2
      · intro x hx
        rw [rebuild_validators]
        exact setStr_isSome_mono _ _ _ x hx

/-- add_or_update_validator_stake preserves registry keying and every
registered entry. -/
theorem aous_inv (m : ValidatorManager) (addr pk : String) (sc now : ℚ)
    (hl : ∀ a v, lookupStr m.validators a = some v → v.wallet_address = a)
    (vopt : Option Validator) (vm2 : ValidatorManager)
    (heq : m.add_or_update_validator_stake addr pk sc now = (vopt, vm2)) :
    (∀ a v, lookupStr vm2.validators a = some v → v.wallet_address = a) ∧
    (∀ x, (lookupStr m.validators x).isSome = true →
      (lookupStr vm2.validators x).isSome = true) := by
  unfold ValidatorManager.add_or_update_validator_stake at heq
  by_cases he : addr = "" ∨ pk = ""
  · rw [if_pos he] at heq
    cases heq
    exact ⟨hl, fun x hx => hx⟩
  · rw [if_neg he] at heq
    cases hk : lookupStr m.validators addr with
    | none =>
      rw [hk] at heq
      dsimp only at heq
      by_cases hneg : sc < 0
      · rw [if_pos hneg] at heq
        cases heq
        exact ⟨hl, fun x hx => hx⟩
      · rw [if_neg hneg] at heq
        have hvm2 := congrArg Prod.snd heq
        dsimp only at hvm2
        rw [← hvm2, rebuild_validators]
        have hl1 : ∀ a v,
            lookupStr (setStr m.validators addr (Validator.init addr pk sc now)) a = some v →
              v.wallet_address = a :=
          setStr_addr_inv hl addr _ rfl
        have h2 := uas_inv { m with validators := setStr m.validators addr (Validator.init addr pk sc now) } addr hl1
        refine ⟨h2.1, ?_⟩
        intro x hx
        exact h2.2 x (setStr_isSome_mono _ _ _ x hx)
    | some v =>
      rw [hk] at heq
      dsimp only at heq
      by_cases hneg : v.stake + sc < 0
      · rw [if_pos hneg] at heq
        cases heq
        exact ⟨hl, fun x hx => hx⟩
      · rw [if_neg hneg] at heq
        have hvm2 := congrArg Prod.snd heq
        dsimp only at hvm2
        rw [← hvm2, rebuild_validators]
        have hl1 : ∀ a v2,
            lookupStr (setStr m.validators addr { v with stake := v.stake + sc }) a = some v2 →
              v2.wallet_address = a :=
          setStr_addr_inv hl addr _ (hl addr v hk)
        have h2 := uas_inv { m with validators := setStr m.validators addr { v with stake := v.stake + sc } } addr hl1
        refine ⟨h2.1, ?_⟩
        intro x hx
        exact h2.2 x (setStr_isSome_mono _ _ _ x hx)

theorem NodeInv_tx_broadcast (n : Node) (t : Transaction) (h : NodeInv n) :
    NodeInv (broadcast_transaction n t) := by
  unfold broadcast_transaction
  by_cases hc : n.seen_tx_ids_broadcast.contains t.transaction_id = true
  · rw [if_pos hc]; exact h
  · rw [if_neg hc]; exact h

theorem NodeInv_block_broadcast (n : Node) (b : Block) (h : NodeInv n) :
    NodeInv (broadcast_block n b) := by
  unfold broadcast_block
  by_cases hc : n.seen_block_hashes_broadcast.contains b.hash = true
  · rw [if_pos hc]; exact h
  · rw [if_neg hc]; exact h

/-- Genesis construction establishes the invariant. -/
theorem inv_genesis (w : Wallet) (now : ℚ) : NodeInv (createBlockchain w now) := by
  have ht : ((Block.init 0 [] now "0" w.address none).sign_block w).transactions = [] := by
    rw [sign_block_transactions]
    rfl
  have hseed : seedOf (createBlockchain w now) = bset [] w.address INITIAL_SUPPLY_EPC := by
    show (if ((Block.init 0 [] now "0" w.address none).sign_block w).transactions = []
        then bset [] ((Block.init 0 [] now "0" w.address none).sign_block w).validator_address
          INITIAL_SUPPLY_EPC
        else []) = bset [] w.address INITIAL_SUPPLY_EPC
    rw [ht, if_pos rfl, sign_block_validator]
    rfl
  have hh : check_block_header (setStr [] w.address w.key) (ValidatorManager.init 100) none
      ((Block.init 0 [] now "0" w.address none).sign_block w) = none := by
    apply header_intro_first _ _ _ ⟨w.key, sha256 (Block.init 0 [] now "0" w.address none).hash⟩
      w.key
    · rw [sign_block_hash, sign_block_calc]
      exact block_init_hash 0 [] now "0" w.address none
    · rw [sign_block_matching _ _ rfl]
    · rw [sign_block_validator]
      show lookupStr (setStr [] w.address w.key) w.address = some w.key
      rw [lookupStr_setStr, if_pos rfl]
    · rw [block_verify_iff]
      refine ⟨?_, ?_⟩
      · rw [sign_block_hash, block_init_hash]
        exact calc_ne_empty _
      · rw [sign_block_matching _ _ rfl]
  refine ⟨⟨(Block.init 0 [] now "0" w.address none).sign_block w, rfl, ht⟩, ?_, ?_, ?_, ?_⟩
  · show check_chain_blocks (setStr [] w.address w.key) (ValidatorManager.init 100) none
      [(Block.init 0 [] now "0" w.address none).sign_block w] (seedOf (createBlockchain w now)) =
      .ok (bset [] w.address INITIAL_SUPPLY_EPC)
    rw [hseed, check_chain_cons, hh]
    dsimp only
    rw [ht]
    rfl
  · intro a w2 hw2
    have hw2a : lookupStr (setStr [] w.address w) a = some w2 := hw2
    rw [lookupStr_setStr] at hw2a
    by_cases hax : w.address = a
    · rw [if_pos hax] at hw2a
      cases hw2a
      refine ⟨hax, ?_⟩
      show lookupStr (setStr [] w.address w.key) a = some w.key
      rw [lookupStr_setStr, if_pos hax]
    · rw [if_neg hax] at hw2a
      exact absurd hw2a (by simp [lookupStr])
  · intro tx htx
    exact absurd htx (List.not_mem_nil tx)
  · intro a v hv
    exact absurd (show lookupStr ([] : List (String × Validator)) a = some v from hv)
      (by simp [lookupStr])

/-- Registering a fresh user key preserves the invariant. -/
theorem inv_register_user (n : Node) (addr key : String) (h : NodeInv n)
    (hfresh : lookupStr n.user_public_keys addr = none) :
    NodeInv { n with user_public_keys := setStr n.user_public_keys addr key } := by
  obtain ⟨hgen, hwalk, hvw, hpend, hvm⟩ := h
  have hmono : ∀ x v, lookupStr n.user_public_keys x = some v →
      lookupStr (setStr n.user_public_keys addr key) x = some v := by
    intro x v hx
    rw [lookupStr_setStr]
    by_cases hax : addr = x
    · subst hax
      rw [hfresh] at hx
      exact absurd hx (by simp)
    · rw [if_neg hax]
      exact hx
  refine ⟨hgen, ?_, ?_, ?_, hvm⟩
  · exact check_chain_mono n.user_public_keys (setStr n.user_public_keys addr key)
      n.validator_manager n.validator_manager hmono (fun x hx => hx) n.chain none (seedOf n)
      n.balances hwalk
  · intro a w2 hw2
    obtain ⟨h1, h2⟩ := hvw a w2 hw2
    exact ⟨h1, hmono _ _ h2⟩
  · intro tx htx
    obtain ⟨pk, h1, h2⟩ := hpend tx htx
    exact ⟨pk, hmono _ _ h1, h2⟩

/-- Registering a validator wallet (with a fresh or consistent key)
preserves the invariant. -/
theorem inv_register (n : Node) (w : Wallet) (stake now : ℚ) (h : NodeInv n)
    (hfresh : lookupStr n.user_public_keys w.address = none ∨
      lookupStr n.user_public_keys w.address = some w.key) :
    NodeInv (register_validator_wallet n w stake now) := by
  obtain ⟨hgen, hwalk, hvw, hpend, hvm⟩ := h
  unfold register_validator_wallet
  by_cases hs : stake ≤ 0
  · rw [if_pos hs]
    exact ⟨hgen, hwalk, hvw, hpend, hvm⟩
  · rw [if_neg hs]
    cases haous : n.validator_manager.add_or_update_validator_stake w.address w.key stake now with
    | mk vopt vm2 =>
      obtain ⟨hvm2, hmono2⟩ :=
        aous_inv n.validator_manager w.address w.key stake now hvm vopt vm2 haous
      dsimp only
      cases vopt with
      | none =>
        refine ⟨hgen, ?_, hvw, hpend, hvm2⟩
        exact check_chain_mono n.user_public_keys n.user_public_keys n.validator_manager vm2
          (fun x v hx => hx) hmono2 n.chain none (seedOf n) n.balances hwalk
      | some v0 =>
        have hkmono : ∀ x v, lookupStr n.user_public_keys x = some v →
            lookupStr (setStr n.user_public_keys w.address w.key) x = some v := by
          intro x v hx
          by_cases hax : w.address = x
          · subst hax
            rcases hfresh with hf | hf
            · rw [hf] at hx
              exact absurd hx (by simp)
            · rw [hf] at hx
              rw [lookupStr_setStr, if_pos rfl]
              exact hx
          · rw [lookupStr_setStr, if_neg hax]
            exact hx
        refine ⟨hgen, ?_, ?_, ?_, hvm2⟩
        · exact check_chain_mono n.user_public_keys (setStr n.user_public_keys w.address w.key)
            n.validator_manager vm2 hkmono hmono2 n.chain none (seedOf n) n.balances hwalk
        · intro a w2 hw2
          have hw2a : lookupStr (setStr n.validator_wallets w.address w) a = some w2 := hw2
          rw [lookupStr_setStr] at hw2a
          by_cases hax : w.address = a
          · rw [if_pos hax] at hw2a
            cases hw2a
            refine ⟨hax, ?_⟩
            show lookupStr (setStr n.user_public_keys w.address w.key) a = some w.key
            rw [lookupStr_setStr, if_pos hax]
          · rw [if_neg hax] at hw2a
            obtain ⟨h1, h2⟩ := hvw a w2 hw2a
            exact ⟨h1, hkmono _ _ h2⟩
        · intro tx htx
          obtain ⟨pk, h1, h2⟩ := hpend tx htx
          exact ⟨pk, hkmono _ _ h1, h2⟩

/-- add_transaction preserves the invariant when the supplied key is the
sender's registered key. -/
theorem inv_addtx (n : Node) (t : Transaction) (pk : String) (flag : Bool) (h : NodeInv n)
    (hpk : lookupStr n.user_public_keys t.sender_address = some pk) :
    NodeInv (add_transaction n t pk flag).2 := by
  obtain ⟨hgen, hwalk, hvw, hpend, hvm⟩ := h
  unfold add_transaction
  by_cases hv : ¬ t.verify_signature pk = true
  · rw [if_pos hv]
    exact ⟨hgen, hwalk, hvw, hpend, hvm⟩
  · rw [if_neg hv]
    push_neg at hv
    dsimp only
    by_cases hfo : ¬ (if t.asset_id = NATIVE_CURRENCY_SYMBOL then
        decide (t.amount ≤ bget n.balances t.sender_address - pending_outgoing n t.sender_address)
        else true) = true
    · rw [if_pos hfo]
      exact ⟨hgen, hwalk, hvw, hpend, hvm⟩
    · rw [if_neg hfo]
      by_cases hdup :
          n.pending_transactions.any (fun tx => tx.transaction_id == t.transaction_id) = true
      · rw [if_pos hdup]
        exact ⟨hgen, hwalk, hvw, hpend, hvm⟩
      · rw [if_neg hdup]
        have hinv1 : NodeInv { n with pending_transactions := n.pending_transactions ++ [t] } := by
          refine ⟨hgen, hwalk, hvw, ?_, hvm⟩
          intro tx htx
          rcases List.mem_append.mp htx with hmem | hmem
          · exact hpend tx hmem
          · rw [List.mem_singleton.mp hmem]
            exact ⟨pk, hpk, hv⟩
        cases flag with
        | true =>
          rw [if_pos rfl]
          exact hinv1
        | false =>
          rw [if_neg (by simp)]
          exact NodeInv_tx_broadcast _ t hinv1

/-- Case analysis of a successful call of mine_pending_transactions: the
guards that passed and the shape of the mined block and resulting node. -/
theorem mine_success_cases (n : Node) (now : ℚ) (blk : Block) (n2 : Node)
    (heq : mine_pending_transactions n now = (some blk, n2)) :
    ∃ sv vm1 vw simfinal valid_txs balances2,
      n.validator_manager.select_next_validator now = (some sv, vm1) ∧
      lookupStr n.validator_wallets sv.wallet_address = some vw ∧
      n.pending_transactions ≠ [] ∧
      simulate_pending n.pending_transactions n.balances = (simfinal, valid_txs) ∧
      valid_txs ≠ [] ∧
      blk = (Block.init n.chain.length valid_txs now
        (((n.chain.getLast?).map (fun b => b.hash)).getD "0") sv.wallet_address none).sign_block
        vw ∧
      apply_transactions blk.transactions n.balances = (true, balances2) ∧
      n2 = broadcast_block { n with validator_manager := vm1, balances := balances2, chain := n.chain ++ [blk], pending_transactions := n.pending_transactions.filter (fun ptx => ¬ (blk.transactions.map (fun tx => tx.transaction_id)).contains ptx.transaction_id) } blk := by
  unfold mine_pending_transactions at heq
  cases hsel : n.validator_manager.select_next_validator now with
  | mk sel vm1 =>
    rw [hsel] at heq
    dsimp only at heq
    cases sel with
    | none => exact absurd (congrArg Prod.fst heq) (by simp)
    | some sv =>
      dsimp only at heq
      cases hw : lookupStr n.validator_wallets sv.wallet_address with
      | none =>
        rw [hw] at heq
        exact absurd (congrArg Prod.fst heq) (by simp)
      | some vw =>
        rw [hw] at heq
        dsimp only at heq
        by_cases hpe : n.pending_transactions = []
        · rw [if_pos hpe] at heq
          exact absurd (congrArg Prod.fst heq) (by simp)
        · rw [if_neg hpe] at heq
          cases hsim : simulate_pending n.pending_transactions n.balances with
          | mk simfinal valid_txs =>
            rw [hsim] at heq
            dsimp only at heq
            by_cases hvt : valid_txs = []
            · rw [if_pos hvt] at heq
              exact absurd (congrArg Prod.fst heq) (by simp)
            · rw [if_neg hvt] at heq
              cases happ : apply_transactions ((Block.init n.chain.length valid_txs now
                  (((n.chain.getLast?).map (fun b => b.hash)).getD "0") sv.wallet_address
                  none).sign_block vw).transactions n.balances with
              | mk ok balances2 =>
                rw [happ] at heq
                dsimp only at heq
                cases ok with
                | false =>
                  rw [if_pos (by simp)] at heq
                  exact absurd (congrArg Prod.fst heq) (by simp)
                | true =>
                  rw [if_neg (fun hc => hc rfl)] at heq
                  have hfst := congrArg Prod.fst heq
                  have hsnd := congrArg Prod.snd heq
                  dsimp only at hfst hsnd
                  have hblk := (Option.some.inj hfst).symm
                  refine ⟨sv, vm1, vw, simfinal, valid_txs, balances2, rfl, hw, hpe, rfl, hvt,
                    hblk, ?_, ?_⟩
                  · rw [hblk]
                    exact happ
                  · rw [hblk]
                    exact hsnd.symm

/-- Successful mining preserves the invariant. -/
theorem inv_mine (n : Node) (now : ℚ) (blk : Block) (n2 : Node) (h : NodeInv n)
    (heq : mine_pending_transactions n now = (some blk, n2)) : NodeInv n2 := by
  obtain ⟨⟨g0, hg0, hg0t⟩, hwalk, hvw, hpend, hvm⟩ := h
  obtain ⟨sv, vm1, vw, simfinal, valid_txs, balances2, hsel, hw, hpe, hsim, hvt, hblk, happ,
    hn2⟩ := mine_success_cases n now blk n2 heq
  obtain ⟨selected, v, hkv, hsv, hvm1⟩ := select_some_spec n.validator_manager now sv vm1 hsel
  have hsvaddr : sv.wallet_address = selected := by
    rw [hsv]
    exact hvm selected v hkv
  have hchne : n.chain ≠ [] := by
    intro hc
    rw [hc] at hg0
    simp at hg0
  obtain ⟨lastb, hlast⟩ : ∃ lb, n.chain.getLast? = some lb := by
    cases huc : n.chain.getLast? with
    | none => exact absurd (List.getLast?_eq_none_iff.mp huc) hchne
    | some lb => exact ⟨lb, rfl⟩
  obtain ⟨hvwaddr, hvwkey⟩ := hvw sv.wallet_address vw hw
  have hvm1inv : ∀ a v2, lookupStr vm1.validators a = some v2 → v2.wallet_address = a := by
    rw [hvm1]
    exact setStr_addr_inv hvm selected sv hsvaddr
  have hvm1mono : ∀ x, (lookupStr n.validator_manager.validators x).isSome = true →
      (lookupStr vm1.validators x).isSome = true := by
    rw [hvm1]
    exact setStr_isSome_mono n.validator_manager.validators selected sv
  have hbt : blk.transactions = valid_txs := by
    rw [hblk, sign_block_transactions]
    rfl
  have hbhash : blk.hash = blk.calculate_block_hash := by
    rw [hblk, sign_block_hash, sign_block_calc]
    exact block_init_hash _ _ _ _ _ _
  have hbva : blk.validator_address = sv.wallet_address := by
    rw [hblk, sign_block_validator]
    rfl
  have hbprev : blk.previous_hash = lastb.hash := by
    rw [hblk, sign_block_previous]
    show (((n.chain.getLast?).map (fun b => b.hash)).getD "0") = lastb.hash
    rw [hlast]
    rfl
  have hbsig : blk.signature_hex = some ⟨vw.key, sha256 blk.hash⟩ := by
    rw [hblk, sign_block_matching _ _ hvwaddr]
  have hbver : blk.verify_block_signature vw.key = true := by
    rw [block_verify_iff]
    refine ⟨?_, hbsig⟩
    rw [hbhash]
    exact calc_ne_empty blk
  have hget : (vm1.get_validator blk.validator_address).isSome = true := by
    show (lookupStr vm1.validators blk.validator_address).isSome = true
    rw [hbva, hsvaddr, hvm1, lookupStr_setStr, if_pos rfl]
    rfl
  have hkey : lookupStr n.user_public_keys blk.validator_address = some vw.key := by
    rw [hbva]
    exact hvwkey
  have hh : check_block_header n.user_public_keys vm1 (some lastb) blk = none :=
    header_intro_next n.user_public_keys vm1 lastb blk vw.key hbhash hbprev hkey hget hbver
  have hreg : ∀ tx ∈ valid_txs, ∃ pk, lookupStr n.user_public_keys tx.sender_address = some pk ∧
      tx.verify_signature pk = true := by
    intro tx htx
    refine hpend tx (simulate_subset n.pending_transactions n.balances tx ?_)
    rw [hsim]
    exact htx
  have htxwalk : check_block_transactions n.user_public_keys blk.transactions n.balances =
      .ok balances2 := by
    rw [hbt]
    exact check_eq_apply n.user_public_keys valid_txs n.balances balances2 hreg
      (by rw [← hbt]; exact happ)
  have hpref : check_chain_blocks n.user_public_keys vm1 none n.chain (seedOf n) =
      .ok n.balances :=
    check_chain_mono n.user_public_keys n.user_public_keys n.validator_manager vm1
      (fun x v2 hx => hx) hvm1mono n.chain none (seedOf n) n.balances hwalk
  rw [hn2]
  apply NodeInv_block_broadcast
  refine ⟨⟨g0, ?_, hg0t⟩, ?_, hvw, ?_, hvm1inv⟩
  · show (n.chain ++ [blk]).head? = some g0
    rw [head_append_single n.chain blk hchne]
    exact hg0
  · have hgoal : ∀ (m : Node), m.user_public_keys = n.user_public_keys →
        m.validator_manager = vm1 → m.chain = n.chain ++ [blk] → m.balances = balances2 →
        m.total_supply_epc = n.total_supply_epc →
        check_chain_blocks m.user_public_keys m.validator_manager none m.chain (seedOf m) =
          .ok m.balances := by
      intro m hk hm hc hb ht
      have hseedm : seedOf m = seedOf n := by
        unfold seedOf
        rw [hc, head_append_single n.chain blk hchne, ht]
      rw [hk, hm, hc, hb, hseedm]
      rw [check_chain_append n.user_public_keys vm1 [blk] n.chain none (seedOf n), hpref]
      dsimp only
      rw [hlast]
      rw [show (some lastb).or (none : Option Block) = some lastb from rfl]
      rw [check_chain_cons, hh]
      dsimp only
      rw [htxwalk]
      rfl
    exact hgoal _ rfl rfl rfl rfl rfl
  · intro tx htx
    obtain ⟨hmem, -⟩ := List.mem_filter.mp htx
    exact hpend tx hmem

/-- Honest construction of a node: genesis creation, registration of
fresh user keys, validator registration with a fresh or consistent key,
mempool admission through add_transaction with the sender's registered
key, and successful block production. -/
inductive Reach : Node → Prop where
  | genesis (w : Wallet) (now : ℚ) : Reach (createBlockchain w now)
  | register (n : Node) (w : Wallet) (stake now : ℚ) (h : Reach n)
      (hfresh : lookupStr n.user_public_keys w.address = none ∨
        lookupStr n.user_public_keys w.address = some w.key) :
      Reach (register_validator_wallet n w stake now)
  | newUserKey (n : Node) (addr key : String) (h : Reach n)
      (hfresh : lookupStr n.user_public_keys addr = none) :
      Reach { n with user_public_keys := setStr n.user_public_keys addr key }
  | addTx (n : Node) (t : Transaction) (pk : String) (flag : Bool) (h : Reach n)
      (hpk : lookupStr n.user_public_keys t.sender_address = some pk) :
      Reach (add_transaction n t pk flag).2
  | mine (n : Node) (now : ℚ) (blk : Block) (n2 : Node) (h : Reach n)
      (heq : mine_pending_transactions n now = (some blk, n2)) : Reach n2

theorem reach_inv (n : Node) (h : Reach n) : NodeInv n := by
  induction h with
  | genesis w now => exact inv_genesis w now
  | register n w stake now _ hfresh ih => exact inv_register n w stake now ih hfresh
  | newUserKey n addr key _ hfresh ih => exact inv_register_user n addr key ih hfresh
  | addTx n t pk flag _ hpk ih => exact inv_addtx n t pk flag ih hpk
  | mine n now blk n2 _ heq ih => exact inv_mine n now blk n2 ih heq

/-- A passing non-genesis header check pins linkage, a registered key,
manager membership and a verifying signature. -/
theorem header_none_next (keys : List (String × String)) (vm : ValidatorManager) (p b : Block)
    (h : check_block_header keys vm (some p) b = none) :
    b.previous_hash = p.hash ∧ ∃ vpk, lookupStr keys b.validator_address = some vpk ∧
      (vm.get_validator b.validator_address).isSome = true ∧
      b.verify_block_signature vpk = true := by
  unfold check_block_header at h
  by_cases h1 : b.hash ≠ b.calculate_block_hash
  · rw [if_pos h1] at h
    exact absurd h (by simp)
  · rw [if_neg h1] at h
    dsimp only at h
    by_cases h2 : b.previous_hash ≠ p.hash
    · rw [if_pos h2] at h
      exact absurd h (by simp)
    · rw [if_neg h2] at h
      push_neg at h2
      cases h3 : lookupStr keys b.validator_address with
      | none => rw [h3] at h; exact absurd h (by simp)
      | some vpk =>
        rw [h3] at h
        dsimp only at h
        by_cases h4 : (vm.get_validator b.validator_address).isNone = true
        · rw [if_pos h4] at h; exact absurd h (by simp)
        · rw [if_neg h4] at h
          by_cases h5 : ¬ b.verify_block_signature vpk = true
          · rw [if_pos h5] at h; exact absurd h (by simp)
          · push_neg at h5
            refine ⟨h2, vpk, rfl, ?_, h5⟩
            cases hn : vm.get_validator b.validator_address with
            | none => rw [hn] at h4; simp at h4
            | some v => simp

/-- The header check only reads the stored hash, the recomputed hash,
the linkage fields and the signature. -/
theorem header_congr (keys : List (String × String)) (vm : ValidatorManager) (p : Option Block)
    (x y : Block) (hhash : x.hash = y.hash)
    (hcalc : x.calculate_block_hash = y.calculate_block_hash)
    (hprev : x.previous_hash = y.previous_hash) (hva : x.validator_address = y.validator_address)
    (hsig : x.signature_hex = y.signature_hex) :
    check_block_header keys vm p x = check_block_header keys vm p y := by
  have hver : ∀ vpk, x.verify_block_signature vpk = y.verify_block_signature vpk := by
    intro vpk
    unfold Block.verify_block_signature Block.get_data_for_block_signing
    rw [hhash, hsig]
  unfold check_block_header
  simp only [hver, hhash, hcalc, hprev, hva, hsig]

theorem header_hash_fail_intro (keys : List (String × String)) (vm : ValidatorManager)
    (prev : Option Block) (b : Block) (hbad : b.hash ≠ b.calculate_block_hash) :
    check_block_header keys vm prev b = some .invalidHash := by
  unfold check_block_header
  rw [if_pos hbad]

theorem header_sig_fail_next (keys : List (String × String)) (vm : ValidatorManager)
    (p b : Block) (vpk : String) (h1 : b.hash = b.calculate_block_hash)
    (hlink : b.previous_hash = p.hash) (h3 : lookupStr keys b.validator_address = some vpk)
    (hmgr : (vm.get_validator b.validator_address).isSome = true)
    (h5 : b.verify_block_signature vpk = false) :
    check_block_header keys vm (some p) b = some .invalidBlockSignature := by
  unfold check_block_header
  rw [if_neg (fun hc => hc h1)]
  dsimp only
  rw [if_neg (fun hc => hc hlink), h3]
  dsimp only
  rw [if_neg (by rw [Option.isSome_iff_ne_none] at hmgr; simpa using hmgr)]
  rw [if_pos (by rw [h5]; simp)]

theorem header_sig_fail_first (keys : List (String × String)) (vm : ValidatorManager)
    (b : Block) (s1 : Sig) (vpk : String) (h1 : b.hash = b.calculate_block_hash)
    (hs1 : b.signature_hex = some s1) (h3 : lookupStr keys b.validator_address = some vpk)
    (h5 : b.verify_block_signature vpk = false) :
    check_block_header keys vm none b = some .invalidBlockSignature := by
  unfold check_block_header
  rw [if_neg (fun hc => hc h1)]
  dsimp only
  rw [hs1]
  dsimp only
  rw [h3]
  dsimp only
  rw [if_pos (by rw [h5]; simp)]

/-- Replacing the signature of one transaction of a passing block
transaction walk makes the walk fail with the invalid-tx-signature
error, as long as the replacement differs from the stored signature. -/
theorem check_btx_set_sig (keys : List (String × String)) :
    ∀ (txs : List Transaction) (temp out : Balances) (j : Nat) (t : Transaction) (s : Sig),
      check_block_transactions keys txs temp = .ok out →
      txs[j]? = some t → t.signature_hex ≠ some s →
      check_block_transactions keys (txs.set j { t with signature_hex := some s }) temp =
        .error .invalidTxSignature := by
  intro txs
  induction txs with
  | nil => intro temp out j t s h hj hs; simp at hj
  | cons t0 rest ih =>
    intro temp out j t s h hj hs
    unfold check_block_transactions at h
    cases hk : lookupStr keys t0.sender_address with
    | none => rw [hk] at h; exact absurd h (by simp)
    | some pk =>
      rw [hk] at h
      dsimp only at h
      by_cases hv : ¬ t0.verify_signature pk = true
      · rw [if_pos hv] at h; exact absurd h (by simp)
      · rw [if_neg hv] at h
        push_neg at hv
        cases j with
        | zero =>
          have ht : t0 = t := by simpa using hj
          subst ht
          have horig := (tx_verify_iff t0 pk).mp hv
          have hv2 : ({ t0 with signature_hex := some s } : Transaction).verify_signature pk
              = false := by
            rw [Bool.eq_false_iff]
            intro hcon
            have hss : some s = some (⟨pk, sha256 t0.get_data_for_signing⟩ : Sig) :=
              (tx_verify_iff _ pk).mp hcon
            apply hs
            rw [horig]
            exact hss.symm
          show check_block_transactions keys ({ t0 with signature_hex := some s } :: rest) temp =
            .error .invalidTxSignature
          unfold check_block_transactions
          rw [show ({ t0 with signature_hex := some s } : Transaction).sender_address =
            t0.sender_address from rfl, hk]
          dsimp only
          rw [if_pos (by rw [hv2]; simp)]
        | succ j2 =>
          have hj2 : rest[j2]? = some t := by simpa using hj
          show check_block_transactions keys
            (t0 :: rest.set j2 { t with signature_hex := some s }) temp =
            .error .invalidTxSignature
          unfold check_block_transactions
          rw [hk]
          dsimp only
          rw [if_neg (fun hc => hc hv)]
          by_cases ha : t0.asset_id = NATIVE_CURRENCY_SYMBOL
          · rw [if_pos ha] at h ⊢
            by_cases hb : bget temp t0.sender_address < t0.amount
            · rw [if_pos hb] at h
              exact absurd h (by simp)
            · rw [if_neg hb] at h ⊢
              exact ih _ _ j2 t s h hj2 hs
          · rw [if_neg ha] at h ⊢
            exact ih _ _ j2 t s h hj2 hs

/-- Surgery on one block of a passing chain walk: if the replacement
block fails its header check with error e, or passes it and fails its
transaction walk with error e, the whole walk fails with e. -/
theorem check_chain_set_error (keys : List (String × String)) (vm : ValidatorManager)
    (b b2 : Block) (e : ChainError)
    (hcase : ∀ (p : Option Block) (temp2 out2 : Balances),
      check_block_header keys vm p b = none →
      check_block_transactions keys b.transactions temp2 = .ok out2 →
      (check_block_header keys vm p b2 = some e ∨
        (check_block_header keys vm p b2 = none ∧
          check_block_transactions keys b2.transactions temp2 = .error e))) :
    ∀ (chain : List Block) (i : Nat) (prev : Option Block) (temp out : Balances),
      chain[i]? = some b →
      check_chain_blocks keys vm prev chain temp = .ok out →
      check_chain_blocks keys vm prev (chain.set i b2) temp = .error e := by
  intro chain
  induction chain with
  | nil => intro i prev temp out hi h; simp at hi
  | cons c rest ih =>
    intro i prev temp out hi h
    rw [check_chain_cons] at h
    cases hh : check_block_header keys vm prev c with
    | some e2 => rw [hh] at h; exact absurd h (by simp)
    | none =>
      rw [hh] at h
      dsimp only at h
      cases htx : check_block_transactions keys c.transactions temp with
      | error e2 => rw [htx] at h; exact absurd h (by simp)
      | ok temp2 =>
        rw [htx] at h
        dsimp only at h
        cases i with
        | zero =>
          have hc : c = b := by simpa using hi
          subst hc
          show check_chain_blocks keys vm prev (b2 :: rest) temp = .error e
          rw [check_chain_cons]
          rcases hcase prev temp temp2 hh htx with hcs | ⟨hnone, herr⟩
          · rw [hcs]
          · rw [hnone]
            dsimp only
            rw [herr]
        | succ i2 =>
          have hi2 : rest[i2]? = some b := by simpa using hi
          show check_chain_blocks keys vm prev (c :: rest.set i2 b2) temp = .error e
          rw [check_chain_cons, hh]
          dsimp only
          rw [htx]
          dsimp only
          exact ih i2 (some c) temp2 out hi2 h

theorem seedOf_eq_of_head (n : Node) (ch2 : List Block) (hh : ch2.head? = n.chain.head?) :
    seedOf { n with chain := ch2 } = seedOf n := by
  unfold seedOf
  dsimp only
  rw [hh]

theorem seedOf_eq_of_head_cases (n : Node) (ch2 : List Block) (g g2 : Block)
    (h1 : n.chain.head? = some g) (h2 : ch2.head? = some g2)
    (htx : g2.transactions = [] ↔ g.transactions = [])
    (hva : g2.validator_address = g.validator_address) :
    seedOf { n with chain := ch2 } = seedOf n := by
  unfold seedOf
  dsimp only
  rw [h1, h2]
  dsimp only
  rw [hva]
  by_cases he : g.transactions = []
  · rw [if_pos (htx.mpr he), if_pos he]
  · rw [if_neg (fun hc => he (htx.mp hc)), if_neg he]

theorem seedOf_set_general (n : Node) (i : Nat) (b b2 : Block) (hb : n.chain[i]? = some b)
    (htx : b2.transactions = [] ↔ b.transactions = [])
    (hva : b2.validator_address = b.validator_address) :
    seedOf { n with chain := n.chain.set i b2 } = seedOf n := by
  cases hchain : n.chain with
  | nil => rw [hchain] at hb; simp at hb
  | cons c rest =>
    cases i with
    | zero =>
      have hcb : c = b := by rw [hchain] at hb; simpa using hb
      subst hcb
      exact seedOf_eq_of_head_cases n ((c :: rest).set 0 b2) c b2 (by rw [hchain]; rfl) rfl htx
        hva
    | succ i2 =>
      refine seedOf_eq_of_head n ((c :: rest).set (i2 + 1) b2) ?_
      rw [hchain]
      rfl

theorem chain_check_none_walk (n : Node) (h : chain_check n = none) :
    ∃ replayed, check_chain_blocks n.user_public_keys n.validator_manager none n.chain
      (seedOf n) = .ok replayed := by
  rw [chain_check_eq] at h
  cases hw : check_chain_blocks n.user_public_keys n.validator_manager none n.chain (seedOf n)
    with
  | error e => rw [hw] at h; simp at h
  | ok r => exact ⟨r, rfl⟩

theorem chain_check_flip (n : Node) (i : Nat) (b2 : Block) (e : ChainError)
    (hseed : seedOf { n with chain := n.chain.set i b2 } = seedOf n)
    (hwalk2 : check_chain_blocks n.user_public_keys n.validator_manager none
      (n.chain.set i b2) (seedOf n) = .error e) :
    chain_check { n with chain := n.chain.set i b2 } = some e := by
  rw [chain_check_eq, hseed]
  dsimp only
  rw [hwalk2]

/-- C2 (amended): every chain built by genesis creation, fresh key
registration, consistently-keyed validator registration, admission of
transactions verified against their sender's registered key and
successful block production passes is_chain_valid; and on any node whose
chain passes validation, replacing any single transaction's stored
signature, any block's stored signature, or any block's stored hash
field by a different value makes validation fail with exactly the
corresponding error kind (invalid transaction signature, invalid block
signature, invalid block hash). -/
theorem chain_validation_characterization :
    (∀ n : Node, Reach n → is_chain_valid n = true) ∧
    (∀ (n : Node) (i j : Nat) (b : Block) (t : Transaction) (s : Sig),
      chain_check n = none → n.chain[i]? = some b → b.transactions[j]? = some t →
      t.signature_hex ≠ some s →
      chain_check { n with chain := n.chain.set i { b with transactions := b.transactions.set j { t with signature_hex := some s } } } = some .invalidTxSignature) ∧
    (∀ (n : Node) (i : Nat) (b : Block) (s0 s : Sig),
      chain_check n = none → n.chain[i]? = some b → b.signature_hex = some s0 → s ≠ s0 →
      chain_check { n with chain := n.chain.set i { b with signature_hex := some s } } =
        some .invalidBlockSignature) ∧
    (∀ (n : Node) (i : Nat) (b : Block) (h2 : String),
      chain_check n = none → n.chain[i]? = some b → h2 ≠ b.hash →
      chain_check { n with chain := n.chain.set i { b with hash := h2 } } =
        some .invalidHash) := by
  refine ⟨?_, ?_, ?_, ?_⟩
  · intro n hr
    show (chain_check n).isNone = true
    rw [inv_chain_check n (reach_inv n hr)]
    rfl
  · intro n i j b t s hchk hb ht hs
    obtain ⟨replayed, hwalk⟩ := chain_check_none_walk n hchk
    have hcalc : ({ b with transactions := b.transactions.set j { t with signature_hex := some s } } : Block).calculate_block_hash = b.calculate_block_hash := by
      rw [calc_shape, calc_shape]
      have hfp : Block.transaction_fingerprint { b with transactions := b.transactions.set j { t with signature_hex := some s } } = Block.transaction_fingerprint b := by
        unfold Block.transaction_fingerprint
        dsimp only
        rw [List.map_set]
        rw [show ({ t with signature_hex := some s } : Transaction).transaction_id =
          t.transaction_id from rfl]
        have hmap : (b.transactions.map (fun tx => tx.transaction_id))[j]? =
            some t.transaction_id := by
          rw [List.getElem?_map, ht]
          rfl
        rw [list_set_self (b.transactions.map (fun tx => tx.transaction_id)) j
          t.transaction_id hmap]
      rw [hfp]
    have hcase : ∀ (p : Option Block) (temp2 out2 : Balances),
        check_block_header n.user_public_keys n.validator_manager p b = none →
        check_block_transactions n.user_public_keys b.transactions temp2 = .ok out2 →
        (check_block_header n.user_public_keys n.validator_manager p { b with transactions := b.transactions.set j { t with signature_hex := some s } } = some ChainError.invalidTxSignature ∨
          (check_block_header n.user_public_keys n.validator_manager p { b with transactions := b.transactions.set j { t with signature_hex := some s } } = none ∧
            check_block_transactions n.user_public_keys ({ b with transactions := b.transactions.set j { t with signature_hex := some s } } : Block).transactions temp2 = .error ChainError.invalidTxSignature)) := by
      intro p temp2 out2 hnone hok
      right
      constructor
      · rw [header_congr n.user_public_keys n.validator_manager p { b with transactions := b.transactions.set j { t with signature_hex := some s } } b rfl hcalc rfl rfl rfl]
        exact hnone
      · exact check_btx_set_sig n.user_public_keys b.transactions temp2 out2 j t s hok ht hs
    have hbtne : b.transactions ≠ [] := by
      intro he
      rw [he] at ht
      simp at ht
    have htxe : (b.transactions.set j { t with signature_hex := some s }) = [] ↔
        b.transactions = [] := by
      constructor
      · intro he
        exfalso
        apply hbtne
        cases hbt2 : b.transactions with
        | nil => rfl
        | cons a l =>
          rw [hbt2] at he
          cases j <;> simp [List.set] at he
      · intro he
        exact absurd he hbtne
    have hseed := seedOf_set_general n i b { b with transactions := b.transactions.set j { t with signature_hex := some s } } hb htxe rfl
    exact chain_check_flip n i _ .invalidTxSignature hseed
      (check_chain_set_error n.user_public_keys n.validator_manager b _ _ hcase n.chain i none
        (seedOf n) replayed hb hwalk)
  · intro n i b s0 s hchk hb hs0 hne
    obtain ⟨replayed, hwalk⟩ := chain_check_none_walk n hchk
    have hcase : ∀ (p : Option Block) (temp2 out2 : Balances),
        check_block_header n.user_public_keys n.validator_manager p b = none →
        check_block_transactions n.user_public_keys b.transactions temp2 = .ok out2 →
        (check_block_header n.user_public_keys n.validator_manager p { b with signature_hex := some s } = some ChainError.invalidBlockSignature ∨
          (check_block_header n.user_public_keys n.validator_manager p { b with signature_hex := some s } = none ∧
            check_block_transactions n.user_public_keys ({ b with signature_hex := some s } : Block).transactions temp2 = .error ChainError.invalidBlockSignature)) := by
      intro p temp2 out2 hnone _
      left
      have h1 := header_none_hash n.user_public_keys n.validator_manager p b hnone
      obtain ⟨vpk, hvpk, hver⟩ :=
        header_none_sig n.user_public_keys n.validator_manager p b s0 hnone hs0
      obtain ⟨hhne, hsig⟩ := (block_verify_iff b vpk).mp hver
      have hs0v : s0 = ⟨vpk, sha256 b.hash⟩ := by
        rw [hs0] at hsig
        exact Option.some.inj hsig
      have hver2 : ({ b with signature_hex := some s } : Block).verify_block_signature vpk =
          false := by
        rw [Bool.eq_false_iff]
        intro hcon
        obtain ⟨-, hsig2⟩ := (block_verify_iff _ vpk).mp hcon
        have hss : some s = some (⟨vpk, sha256 b.hash⟩ : Sig) := hsig2
        apply hne
        rw [hs0v]
        exact Option.some.inj hss
      cases p with
      | some pb =>
        obtain ⟨hlink, vpk2, hvpk2, hmgr, -⟩ :=
          header_none_next n.user_public_keys n.validator_manager pb b hnone
        exact header_sig_fail_next n.user_public_keys n.validator_manager pb { b with signature_hex := some s } vpk h1 hlink hvpk hmgr hver2
      | none =>
        exact header_sig_fail_first n.user_public_keys n.validator_manager { b with signature_hex := some s } s vpk h1 rfl hvpk hver2
    have hseed := seedOf_set_general n i b { b with signature_hex := some s } hb Iff.rfl rfl
    exact chain_check_flip n i _ .invalidBlockSignature hseed
      (check_chain_set_error n.user_public_keys n.validator_manager b _ _ hcase n.chain i none
        (seedOf n) replayed hb hwalk)
  · intro n i b h2 hchk hb hne
    obtain ⟨replayed, hwalk⟩ := chain_check_none_walk n hchk
    have hcase : ∀ (p : Option Block) (temp2 out2 : Balances),
        check_block_header n.user_public_keys n.validator_manager p b = none →
        check_block_transactions n.user_public_keys b.transactions temp2 = .ok out2 →
        (check_block_header n.user_public_keys n.validator_manager p { b with hash := h2 } = some ChainError.invalidHash ∨
          (check_block_header n.user_public_keys n.validator_manager p { b with hash := h2 } = none ∧
            check_block_transactions n.user_public_keys ({ b with hash := h2 } : Block).transactions temp2 = .error ChainError.invalidHash)) := by
      intro p temp2 out2 hnone _
      left
      have h1 := header_none_hash n.user_public_keys n.validator_manager p b hnone
      refine header_hash_fail_intro n.user_public_keys n.validator_manager p { b with hash := h2 } ?_
      show h2 ≠ b.calculate_block_hash
      rw [← h1]
      exact hne
    have hseed := seedOf_set_general n i b { b with hash := h2 } hb Iff.rfl rfl
    exact chain_check_flip n i _ .invalidHash hseed
      (check_chain_set_error n.user_public_keys n.validator_manager b _ _ hcase n.chain i none
        (seedOf n) replayed hb hwalk)

/-- C2 counterexample: a chain built only through the ledger's own
operations (genesis creation, validator registration, admission of a
signature-verified transaction, successful block production) on which
is_chain_valid nevertheless returns false: the mined transaction's
sender was never registered in USER_PUBLIC_KEYS, add_transaction
verifies against the caller-supplied key, and is_chain_valid looks the
sender key up in the registry, failing with the missing-sender-key
diagnostic. -/
theorem honest_chain_unregistered_sender_invalid :
    (add_transaction (register_validator_wallet (createBlockchain ⟨"g", "kg"⟩ 0) ⟨"v", "kv"⟩ 150 0) ((Transaction.init "u" "r" 5 "TKN" 1 0 [] none).sign ⟨"u", "ku"⟩) "ku" false).1 = true ∧
    (mine_pending_transactions (add_transaction (register_validator_wallet (createBlockchain ⟨"g", "kg"⟩ 0) ⟨"v", "kv"⟩ 150 0) ((Transaction.init "u" "r" 5 "TKN" 1 0 [] none).sign ⟨"u", "ku"⟩) "ku" false).2 2).1.isSome = true ∧
    chain_check (mine_pending_transactions (add_transaction (register_validator_wallet (createBlockchain ⟨"g", "kg"⟩ 0) ⟨"v", "kv"⟩ 150 0) ((Transaction.init "u" "r" 5 "TKN" 1 0 [] none).sign ⟨"u", "ku"⟩) "ku" false).2 2).2 = some .missingSenderKey ∧
    is_chain_valid (mine_pending_transactions (add_transaction (register_validator_wallet (createBlockchain ⟨"g", "kg"⟩ 0) ⟨"v", "kv"⟩ 150 0) ((Transaction.init "u" "r" 5 "TKN" 1 0 [] none).sign ⟨"u", "ku"⟩) "ku" false).2 2).2 = false := by
  decide

/-- Witness for the C2 theorem at a concrete two-block chain built by
the ledger's own operations with a registered sender: the chain
validates, and each of the three single-field corruptions of the mined
block fails validation with its specific error kind. -/
theorem chain_validation_characterization_witness :
    is_chain_valid (mine_pending_transactions (add_transaction (register_validator_wallet (createBlockchain ⟨"g", "kg"⟩ 0) ⟨"v", "kv"⟩ 150 0) ((Transaction.init "g" "r" 5 "EPC" 1 0 [] none).sign ⟨"g", "kg"⟩) "kg" false).2 2).2 = true ∧
    chain_check { (mine_pending_transactions (add_transaction (register_validator_wallet (createBlockchain ⟨"g", "kg"⟩ 0) ⟨"v", "kv"⟩ 150 0) ((Transaction.init "g" "r" 5 "EPC" 1 0 [] none).sign ⟨"g", "kg"⟩) "kg" false).2 2).2 with chain := (mine_pending_transactions (add_transaction (register_validator_wallet (createBlockchain ⟨"g", "kg"⟩ 0) ⟨"v", "kv"⟩ 150 0) ((Transaction.init "g" "r" 5 "EPC" 1 0 [] none).sign ⟨"g", "kg"⟩) "kg" false).2 2).2.chain.set 1 { ((mine_pending_transactions (add_transaction (register_validator_wallet (createBlockchain ⟨"g", "kg"⟩ 0) ⟨"v", "kv"⟩ 150 0) ((Transaction.init "g" "r" 5 "EPC" 1 0 [] none).sign ⟨"g", "kg"⟩) "kg" false).2 2).2.chain.getD 1 (Block.init 0 [] 0 "0" "" none)) with transactions := ((mine_pending_transactions (add_transaction (register_validator_wallet (createBlockchain ⟨"g", "kg"⟩ 0) ⟨"v", "kv"⟩ 150 0) ((Transaction.init "g" "r" 5 "EPC" 1 0 [] none).sign ⟨"g", "kg"⟩) "kg" false).2 2).2.chain.getD 1 (Block.init 0 [] 0 "0" "" none)).transactions.set 0 { (((mine_pending_transactions (add_transaction (register_validator_wallet (createBlockchain ⟨"g", "kg"⟩ 0) ⟨"v", "kv"⟩ 150 0) ((Transaction.init "g" "r" 5 "EPC" 1 0 [] none).sign ⟨"g", "kg"⟩) "kg" false).2 2).2.chain.getD 1 (Block.init 0 [] 0 "0" "" none)).transactions.getD 0 (Transaction.init "" "" 0 "" 0 0 [] none)) with signature_hex := some ⟨"x", "y"⟩ } } } = some .invalidTxSignature ∧
    chain_check { (mine_pending_transactions (add_transaction (register_validator_wallet (createBlockchain ⟨"g", "kg"⟩ 0) ⟨"v", "kv"⟩ 150 0) ((Transaction.init "g" "r" 5 "EPC" 1 0 [] none).sign ⟨"g", "kg"⟩) "kg" false).2 2).2 with chain := (mine_pending_transactions (add_transaction (register_validator_wallet (createBlockchain ⟨"g", "kg"⟩ 0) ⟨"v", "kv"⟩ 150 0) ((Transaction.init "g" "r" 5 "EPC" 1 0 [] none).sign ⟨"g", "kg"⟩) "kg" false).2 2).2.chain.set 1 { ((mine_pending_transactions (add_transaction (register_validator_wallet (createBlockchain ⟨"g", "kg"⟩ 0) ⟨"v", "kv"⟩ 150 0) ((Transaction.init "g" "r" 5 "EPC" 1 0 [] none).sign ⟨"g", "kg"⟩) "kg" false).2 2).2.chain.getD 1 (Block.init 0 [] 0 "0" "" none)) with signature_hex := some ⟨"x", "y"⟩ } } = some .invalidBlockSignature ∧
    chain_check { (mine_pending_transactions (add_transaction (register_validator_wallet (createBlockchain ⟨"g", "kg"⟩ 0) ⟨"v", "kv"⟩ 150 0) ((Transaction.init "g" "r" 5 "EPC" 1 0 [] none).sign ⟨"g", "kg"⟩) "kg" false).2 2).2 with chain := (mine_pending_transactions (add_transaction (register_validator_wallet (createBlockchain ⟨"g", "kg"⟩ 0) ⟨"v", "kv"⟩ 150 0) ((Transaction.init "g" "r" 5 "EPC" 1 0 [] none).sign ⟨"g", "kg"⟩) "kg" false).2 2).2.chain.set 1 { ((mine_pending_transactions (add_transaction (register_validator_wallet (createBlockchain ⟨"g", "kg"⟩ 0) ⟨"v", "kv"⟩ 150 0) ((Transaction.init "g" "r" 5 "EPC" 1 0 [] none).sign ⟨"g", "kg"⟩) "kg" false).2 2).2.chain.getD 1 (Block.init 0 [] 0 "0" "" none)) with hash := "corrupted" } } = some .invalidHash := by
  refine ⟨?_, ?_, ?_, ?_⟩
  · exact chain_validation_characterization.1 (mine_pending_transactions (add_transaction (register_validator_wallet (createBlockchain ⟨"g", "kg"⟩ 0) ⟨"v", "kv"⟩ 150 0) ((Transaction.init "g" "r" 5 "EPC" 1 0 [] none).sign ⟨"g", "kg"⟩) "kg" false).2 2).2
      (Reach.mine (add_transaction (register_validator_wallet (createBlockchain ⟨"g", "kg"⟩ 0) ⟨"v", "kv"⟩ 150 0) ((Transaction.init "g" "r" 5 "EPC" 1 0 [] none).sign ⟨"g", "kg"⟩) "kg" false).2 2 ((mine_pending_transactions (add_transaction (register_validator_wallet (createBlockchain ⟨"g", "kg"⟩ 0) ⟨"v", "kv"⟩ 150 0) ((Transaction.init "g" "r" 5 "EPC" 1 0 [] none).sign ⟨"g", "kg"⟩) "kg" false).2 2).1.getD (Block.init 0 [] 0 "0" "" none)) (mine_pending_transactions (add_transaction (register_validator_wallet (createBlockchain ⟨"g", "kg"⟩ 0) ⟨"v", "kv"⟩ 150 0) ((Transaction.init "g" "r" 5 "EPC" 1 0 [] none).sign ⟨"g", "kg"⟩) "kg" false).2 2).2
        (Reach.addTx (register_validator_wallet (createBlockchain ⟨"g", "kg"⟩ 0) ⟨"v", "kv"⟩ 150 0) ((Transaction.init "g" "r" 5 "EPC" 1 0 [] none).sign ⟨"g", "kg"⟩) "kg" false
          (Reach.register (createBlockchain ⟨"g", "kg"⟩ 0) ⟨"v", "kv"⟩ 150 0 (Reach.genesis ⟨"g", "kg"⟩ 0)
            (Or.inl (by decide)))
          (by decide))
        (by decide))
  · exact chain_validation_characterization.2.1 (mine_pending_transactions (add_transaction (register_validator_wallet (createBlockchain ⟨"g", "kg"⟩ 0) ⟨"v", "kv"⟩ 150 0) ((Transaction.init "g" "r" 5 "EPC" 1 0 [] none).sign ⟨"g", "kg"⟩) "kg" false).2 2).2 1 0 ((mine_pending_transactions (add_transaction (register_validator_wallet (createBlockchain ⟨"g", "kg"⟩ 0) ⟨"v", "kv"⟩ 150 0) ((Transaction.init "g" "r" 5 "EPC" 1 0 [] none).sign ⟨"g", "kg"⟩) "kg" false).2 2).2.chain.getD 1 (Block.init 0 [] 0 "0" "" none)) (((mine_pending_transactions (add_transaction (register_validator_wallet (createBlockchain ⟨"g", "kg"⟩ 0) ⟨"v", "kv"⟩ 150 0) ((Transaction.init "g" "r" 5 "EPC" 1 0 [] none).sign ⟨"g", "kg"⟩) "kg" false).2 2).2.chain.getD 1 (Block.init 0 [] 0 "0" "" none)).transactions.getD 0 (Transaction.init "" "" 0 "" 0 0 [] none)) ⟨"x", "y"⟩ (by decide)
      (by decide) (by decide) (by decide)
  · exact chain_validation_characterization.2.2.1 (mine_pending_transactions (add_transaction (register_validator_wallet (createBlockchain ⟨"g", "kg"⟩ 0) ⟨"v", "kv"⟩ 150 0) ((Transaction.init "g" "r" 5 "EPC" 1 0 [] none).sign ⟨"g", "kg"⟩) "kg" false).2 2).2 1 ((mine_pending_transactions (add_transaction (register_validator_wallet (createBlockchain ⟨"g", "kg"⟩ 0) ⟨"v", "kv"⟩ 150 0) ((Transaction.init "g" "r" 5 "EPC" 1 0 [] none).sign ⟨"g", "kg"⟩) "kg" false).2 2).2.chain.getD 1 (Block.init 0 [] 0 "0" "" none)) (((mine_pending_transactions (add_transaction (register_validator_wallet (createBlockchain ⟨"g", "kg"⟩ 0) ⟨"v", "kv"⟩ 150 0) ((Transaction.init "g" "r" 5 "EPC" 1 0 [] none).sign ⟨"g", "kg"⟩) "kg" false).2 2).2.chain.getD 1 (Block.init 0 [] 0 "0" "" none)).signature_hex.getD ⟨"", ""⟩) ⟨"x", "y"⟩ (by decide)
      (by decide) (by decide) (by decide)
  · exact chain_validation_characterization.2.2.2 (mine_pending_transactions (add_transaction (register_validator_wallet (createBlockchain ⟨"g", "kg"⟩ 0) ⟨"v", "kv"⟩ 150 0) ((Transaction.init "g" "r" 5 "EPC" 1 0 [] none).sign ⟨"g", "kg"⟩) "kg" false).2 2).2 1 ((mine_pending_transactions (add_transaction (register_validator_wallet (createBlockchain ⟨"g", "kg"⟩ 0) ⟨"v", "kv"⟩ 150 0) ((Transaction.init "g" "r" 5 "EPC" 1 0 [] none).sign ⟨"g", "kg"⟩) "kg" false).2 2).2.chain.getD 1 (Block.init 0 [] 0 "0" "" none)) "corrupted" (by decide)
      (by decide) (by decide)

end Empower1
